import Mathlib

/-
Verification of the Inverted-Index-Generator repository (src/index.py and
src/query.py).  Python strings are modelled as Lean `String` (a structure
over `List Char`); Python's unicode-aware character classes are modelled
over ASCII, which covers every character the claims exercise.  Python
dictionaries are modelled as association lists in insertion order
(assignment to an existing key keeps its position, a new key is appended),
and a fatal `sys.exit` / uncaught exception is modelled as `Except.error`.
-/

/-- ASCII decimal digits (Python str.isdigit / the digit part of regex w). -/
def isDigitC (c : Char) : Bool :=
  c = '0' || c = '1' || c = '2' || c = '3' || c = '4' ||
  c = '5' || c = '6' || c = '7' || c = '8' || c = '9'

/-- ASCII lowercase letters. -/
def isLowerC (c : Char) : Bool :=
  c = 'a' || c = 'b' || c = 'c' || c = 'd' || c = 'e' || c = 'f' || c = 'g' ||
  c = 'h' || c = 'i' || c = 'j' || c = 'k' || c = 'l' || c = 'm' || c = 'n' ||
  c = 'o' || c = 'p' || c = 'q' || c = 'r' || c = 's' || c = 't' || c = 'u' ||
  c = 'v' || c = 'w' || c = 'x' || c = 'y' || c = 'z'

/-- ASCII uppercase letters. -/
def isUpperC (c : Char) : Bool :=
  c = 'A' || c = 'B' || c = 'C' || c = 'D' || c = 'E' || c = 'F' || c = 'G' ||
  c = 'H' || c = 'I' || c = 'J' || c = 'K' || c = 'L' || c = 'M' || c = 'N' ||
  c = 'O' || c = 'P' || c = 'Q' || c = 'R' || c = 'S' || c = 'T' || c = 'U' ||
  c = 'V' || c = 'W' || c = 'X' || c = 'Y' || c = 'Z'

/-- ASCII whitespace, the characters Python's str.split() and regex s use. -/
def isWsC (c : Char) : Bool :=
  c = ' ' || c = '\t' || c = '\n' || c = '\x0d' || c = '\x0b' || c = '\x0c'

/-- Python regex word characters (ASCII part of w): alphanumeric or underscore. -/
def isWordChar (c : Char) : Bool :=
  isDigitC c || isLowerC c || isUpperC c || c = '_'

/-- Characters that can appear in a normalized token: lowercase alphanumeric
or underscore. -/
def isTokenChar (c : Char) : Bool :=
  isDigitC c || isLowerC c || c = '_'

/-- Python str.lower() on an ASCII character. -/
def pyToLower (c : Char) : Char :=
  if c = 'A' then 'a' else if c = 'B' then 'b' else if c = 'C' then 'c' else
  if c = 'D' then 'd' else if c = 'E' then 'e' else if c = 'F' then 'f' else
  if c = 'G' then 'g' else if c = 'H' then 'h' else if c = 'I' then 'i' else
  if c = 'J' then 'j' else if c = 'K' then 'k' else if c = 'L' then 'l' else
  if c = 'M' then 'm' else if c = 'N' then 'n' else if c = 'O' then 'o' else
  if c = 'P' then 'p' else if c = 'Q' then 'q' else if c = 'R' then 'r' else
  if c = 'S' then 's' else if c = 'T' then 't' else if c = 'U' then 'u' else
  if c = 'V' then 'v' else if c = 'W' then 'w' else if c = 'X' then 'x' else
  if c = 'Y' then 'y' else if c = 'Z' then 'z' else c

/-- Python str.split() with no argument: maximal runs of non-whitespace
characters, in order; the accumulator holds the current run reversed. -/
def splitWsGo (cur : List Char) : List Char → List (List Char)
  | [] => if cur = [] then [] else [cur.reverse]
  | c :: rest =>
    if isWsC c then
      if cur = [] then splitWsGo [] rest else cur.reverse :: splitWsGo [] rest
    else splitWsGo (c :: cur) rest

/-- Python str.split() over the characters of a string. -/
def pySplitChars (l : List Char) : List (List Char) := splitWsGo [] l

/-- Python str.split() returning strings. -/
def pySplit (s : String) : List String := (pySplitChars s.data).map String.mk

/-- Python str.strip(): remove leading and trailing whitespace. -/
def trimChars (l : List Char) : List Char :=
  ((l.dropWhile isWsC).reverse.dropWhile isWsC).reverse

/-- Python str.strip() on a string. -/
def pyStrip (s : String) : String := String.mk (trimChars s.data)

/-- Does the pattern match at the head of the list (used for substring tests). -/
def matchesAt : List Char → List Char → Bool
  | [], _ => true
  | _ :: _, [] => false
  | p :: ps, s :: ss => p = s && matchesAt ps ss

/-- Python substring containment: pat in hay. -/
def containsSub (pat : List Char) : List Char → Bool
  | [] => matchesAt pat []
  | c :: rest => matchesAt pat (c :: rest) || containsSub pat rest

/-- The decimal digit character of a value below ten. -/
def digitChar (n : Nat) : Char :=
  if n = 0 then '0' else if n = 1 then '1' else if n = 2 then '2' else
  if n = 3 then '3' else if n = 4 then '4' else if n = 5 then '5' else
  if n = 6 then '6' else if n = 7 then '7' else if n = 8 then '8' else '9'

/-- Decimal digits of a natural number, most significant first; fuel-based so
that the kernel can evaluate it (fuel larger than the number suffices). -/
def natToDigitsAux : Nat → Nat → List Char
  | 0, _ => []
  | fuel + 1, n =>
    if n < 10 then [digitChar n]
    else natToDigitsAux fuel (n / 10) ++ [digitChar (n % 10)]

/-- Python str() of a non-negative integer. -/
def natToDigits (n : Nat) : List Char := natToDigitsAux (n + 1) n

/-- Python str() of an integer. -/
def intToChars (i : Int) : List Char :=
  if i < 0 then '-' :: natToDigits i.natAbs else natToDigits i.toNat

/-- Python str() of an optional integer (None prints as None). -/
def optToChars : Option Int → List Char
  | none => ['N', 'o', 'n', 'e']
  | some i => intToChars i

/-- Numeric value of a digit character. -/
def digitVal (c : Char) : Nat := c.toNat - 48

/-- Value of a non-empty all-digit character list; none otherwise. -/
def digitsVal : List Char → Option Nat
  | [] => none
  | l => if l.all isDigitC then some (l.foldl (fun a c => 10 * a + digitVal c) 0) else none

/-- Python int() applied to a trimmed decimal literal (an optional sign
followed by digits); other accepted spellings (surrounding whitespace, a
plus sign, digit-group underscores) never occur in this program's data. -/
def pyIntParse : List Char → Option Int
  | [] => none
  | c :: ds =>
    if c = '-' then (digitsVal ds).map (fun n => -(n : Int))
    else (digitsVal (c :: ds)).map (fun n => (n : Int))

/-- Python str.split(sep) for a one-character separator. -/
def splitOnChar (sep : Char) : List Char → List (List Char)
  | [] => [[]]
  | c :: rest =>
    if c = sep then [] :: splitOnChar sep rest
    else (splitOnChar sep rest).modifyHead (c :: ·)

/-- Python str.split on the two-character separator comma-space. -/
def splitCS : List Char → List (List Char)
  | [] => [[]]
  | [c] => [[c]]
  | c1 :: c2 :: rest =>
    if c1 = ',' ∧ c2 = ' ' then [] :: splitCS rest
    else (splitCS (c2 :: rest)).modifyHead (c1 :: ·)

/-- Join character lists with the comma-space separator (Python list repr). -/
def intercalCS : List (List Char) → List Char
  | [] => []
  | [p] => p
  | p :: q :: ps => p ++ ',' :: ' ' :: intercalCS (q :: ps)

/-- Insert into an ascending list of integers. -/
def insertAsc (x : Int) : List Int → List Int
  | [] => [x]
  | y :: ys => if x ≤ y then x :: y :: ys else y :: insertAsc x ys

/-- Ascending sort of integers (Python sorted / list.sort on distinct values). -/
def sortAsc (l : List Int) : List Int := l.foldr insertAsc []

/-- Insert an integer-keyed pair into a list ascending by key. -/
def insertAscPair (p : Int × String) : List (Int × String) → List (Int × String)
  | [] => [p]
  | q :: qs => if p.1 ≤ q.1 then p :: q :: qs else q :: insertAscPair p qs

/-- Python dict(sorted(d.items())) for integer keys. -/
def sortByKeyInt (l : List (Int × String)) : List (Int × String) :=
  l.foldr insertAscPair []

/-- Lexicographic strict order on character lists (Python string <). -/
def strLtB : List Char → List Char → Bool
  | [], [] => false
  | [], _ :: _ => true
  | _ :: _, [] => false
  | a :: as, b :: bs => if a < b then true else if b < a then false else strLtB as bs

/-- Structure of one inverted-index entry as built by generateIndex: the
document frequency DF and the postings list.  A posting is Option Int
because index.py initialises docId to None and only sets it when the
doc_id field is reached, so None can be recorded as a posting. -/
structure BEntry where
  DF : Nat
  postings : List (Option Int)
deriving DecidableEq, Repr

/-- Insert a string-keyed index pair into a list ascending by key. -/
def insertAscEntry (p : String × BEntry) : List (String × BEntry) → List (String × BEntry)
  | [] => [p]
  | q :: qs => if strLtB p.1.data q.1.data then p :: q :: qs else q :: insertAscEntry p qs

/-- Python dict(sorted(index.items())): keys ascending lexicographically
(keys are distinct, so values are never compared). -/
def sortByKeyStr (l : List (String × BEntry)) : List (String × BEntry) :=
  l.foldr insertAscEntry []

/-- Python dict assignment d[k] = v on an association list: overwrite in
place if the key exists, append otherwise. -/
def pyDictSet {α β : Type} [DecidableEq α] : List (α × β) → α → β → List (α × β)
  | [], k, v => [(k, v)]
  | (k0, v0) :: rest, k, v =>
    if k0 = k then (k, v) :: rest else (k0, v0) :: pyDictSet rest k v

/-
Embedding of src/index.py.  A document is a mapping zone-name to content in
field-declaration order (a Python dict from json.load, so keys are unique
and order is insertion order); a JSON null is `none`, and any other JSON
value is its string rendering (int(x) behaves identically on the int 7 and
the string "7").
-/

/-- Errors that abort the build (each is a sys.exit or an uncaught Python
exception in index.py): document with at most one field; empty or null zone
content; int() failing on the doc_id value; duplicate docID; no docID found
after all fields; TypeError from sorting a postings list that mixes None
with integers. -/
inductive BuildError
  | tooFewZones | emptyZone | badDocId | dupDocId | noDocId | sortTypeError
deriving DecidableEq, Repr

/-- index[token]["postings"].sort() : Python's list.sort compares elements,
so a list of two or more elements containing None raises TypeError; a list
of at most one element is returned unchanged without any comparison. -/
def sortPostings (l : List (Option Int)) : Except BuildError (List (Option Int)) :=
  if l.length ≤ 1 then .ok l
  else if none ∈ l then .error .sortTypeError
  else .ok ((sortAsc (l.filterMap id)).map some)

/-- Whitespace-delimited units of a zone's raw content (doc[key].split()). -/
def zoneTokens (v : String) : List String := (pySplitChars v.data).map String.mk

/-- token = re.sub(r'[^ws]', '', token).lower(): drop every character that
is neither a word character nor whitespace, then lowercase. -/
def normalizeToken (raw : String) : String :=
  String.mk ((raw.data.filter (fun c => isWordChar c || isWsC c)).map pyToLower)

/-- The tokens a zone contributes to the index: each whitespace-delimited
unit normalized, units that normalize to the empty string discarded. -/
def tokenizeZone (v : String) : List String :=
  (zoneTokens v).filterMap (fun r =>
    let t := normalizeToken r
    if t = "" then none else some t)

/-- One token's update of the inverted index (the body of the token loop in
generateIndex): if the token exists and this docId is absent from its
postings, append the docId, re-sort, and bump DF; if the token is new,
create an entry with DF 1 and postings [docId].  The dict is an association
list; updating keeps the key's position and a new key is appended. -/
def updateEntry (tok : String) (docId : Option Int) :
    List (String × BEntry) → Except BuildError (List (String × BEntry))
  | [] => .ok [(tok, ⟨1, [docId]⟩)]
  | (k, e) :: rest =>
    if k = tok then
      if docId ∈ e.postings then .ok ((k, e) :: rest)
      else
        match sortPostings (e.postings ++ [docId]) with
        | .error err => .error err
        | .ok sorted => .ok ((k, ⟨e.DF + 1, sorted⟩) :: rest)
    else
      match updateEntry tok docId rest with
      | .error err => .error err
      | .ok rest2 => .ok ((k, e) :: rest2)

/-- The token loop of generateIndex over one zone's whitespace units: skip
units normalizing to empty, otherwise extend docString with the token and a
space and update the index. -/
def processTokens (docId : Option Int) (docString : String)
    (idx : List (String × BEntry)) :
    List String → Except BuildError (String × List (String × BEntry))
  | [] => .ok (docString, idx)
  | raw :: rest =>
    let tok := normalizeToken raw
    if tok = "" then processTokens docId docString idx rest
    else
      match updateEntry tok docId idx with
      | .error err => .error err
      | .ok idx2 => processTokens docId (docString ++ tok ++ " ") idx2 rest

/-- State threaded through the zone loop of one document. -/
structure FState where
  docId : Option Int
  docString : String
  docIDs : List Int
  index : List (String × BEntry)
deriving Repr

/-- One iteration of the zone loop: empty or null content aborts; the
doc_id field is parsed with int(), checked against the already-seen docIDs
and recorded; any other field is tokenized into the index. -/
def processField (fs : FState) (kv : String × Option String) : Except BuildError FState :=
  match kv.2 with
  | none => .error .emptyZone
  | some v =>
    if v = "" then .error .emptyZone
    else if kv.1 = "doc_id" then
      match pyIntParse v.data with
      | none => .error .badDocId
      | some n =>
        if n ∈ fs.docIDs then .error .dupDocId
        else .ok { fs with docId := some n, docIDs := fs.docIDs ++ [n] }
    else
      match processTokens fs.docId fs.docString fs.index (zoneTokens v) with
      | .error err => .error err
      | .ok (ds, idx) => .ok { fs with docString := ds, index := idx }

/-- The zone loop over all fields of one document. -/
def procFields : FState → List (String × Option String) → Except BuildError FState
  | fs, [] => .ok fs
  | fs, kv :: rest =>
    match processField fs kv with
    | .error err => .error err
    | .ok fs2 => procFields fs2 rest

/-- Accumulated state of the document loop of generateIndex. -/
structure BState where
  docIDs : List Int
  index : List (String × BEntry)
  docIndex : List (Int × String)
deriving Repr

/-- One iteration of the document loop: reject documents with at most one
field, run the zone loop from a fresh docId and docString, reject documents
whose docId was never found, then record docIndex[docId] = docString. -/
def processDoc (s : BState) (doc : List (String × Option String)) :
    Except BuildError BState :=
  if doc.length ≤ 1 then .error .tooFewZones
  else
    match procFields ⟨none, "", s.docIDs, s.index⟩ doc with
    | .error err => .error err
    | .ok fs =>
      match fs.docId with
      | none => .error .noDocId
      | some id => .ok ⟨fs.docIDs, fs.index, pyDictSet s.docIndex id fs.docString⟩

/-- The document loop of generateIndex. -/
def runDocs : BState → List (List (String × Option String)) → Except BuildError BState
  | s, [] => .ok s
  | s, d :: ds =>
    match processDoc s d with
    | .error err => .error err
    | .ok s2 => runDocs s2 ds

/-- generateIndex(corpus): run the document loop from empty state, then
return both dictionaries with keys in ascending sorted order. -/
def generateIndex (corpus : List (List (String × Option String))) :
    Except BuildError (List (String × BEntry) × List (Int × String)) :=
  match runDocs ⟨[], [], []⟩ corpus with
  | .error err => .error err
  | .ok s => .ok (sortByKeyStr s.index, sortByKeyInt s.docIndex)

/-
Serialization (generateIndexFiles): one line per record, written with a
trailing newline.  A line is modelled as its character list; written text
never contains a newline (tokens and docStrings consist of word characters
and spaces), so the deserializer's line-by-line file read sees exactly
these lines.
-/

/-- docIndexFile line: docId TAB docString NEWLINE. -/
def docLine (p : Int × String) : List Char :=
  intToChars p.1 ++ '\t' :: (p.2.data ++ ['\n'])

/-- The document-index file as a list of lines. -/
def serializeDocIndex (d : List (Int × String)) : List (List Char) := d.map docLine

/-- str(postings) : Python list repr, brackets around comma-space-joined items. -/
def postingsRepr (l : List (Option Int)) : List Char :=
  '[' :: (intercalCS (l.map optToChars) ++ [']'])

/-- indexFile line: token TAB DF TAB postings-repr NEWLINE. -/
def idxLine (p : String × BEntry) : List Char :=
  p.1.data ++ '\t' :: (natToDigits p.2.DF ++ '\t' :: (postingsRepr p.2.postings ++ ['\n']))

/-- The inverted-index file as a list of lines. -/
def serializeIndex (l : List (String × BEntry)) : List (List Char) := l.map idxLine

/-- buildIndex / generateIndexFiles: the files are written only when
generateIndex succeeds (a validation failure exits before any file is
created), so a failed build produces no output content at all. -/
def buildIndexFiles (corpus : List (List (String × Option String))) :
    Except BuildError (List (List Char) × List (List Char)) :=
  match generateIndex corpus with
  | .error err => .error err
  | .ok (idx, dIdx) => .ok (serializeIndex idx, serializeDocIndex dIdx)

/-
Embedding of src/query.py.
-/

/-- An inverted-index entry as reconstructed by buildIndexes: DF and
postings are parsed with int(), so postings are plain integers. -/
structure DEntry where
  DF : Int
  postings : List Int
deriving DecidableEq, Repr

/-- Python slice s[: len(s) - 2] (for len(s) = 1 the negative bound also
yields the empty result, matching truncated subtraction). -/
def sliceToLenSub2 (l : List Char) : List Char := l.take (l.length - 2)

/-- Python slice s[1 : len(s) - 2]: drop the first character, keep
len(s) - 3 characters (empty whenever the bounds cross). -/
def sliceInner (l : List Char) : List Char := (l.drop 1).take (l.length - 3)

/-- int() of each postings item; any failure is an uncaught ValueError. -/
def intsParse : List (List Char) → Except Unit (List Int)
  | [] => .ok []
  | p :: ps =>
    match pyIntParse p with
    | none => .error ()
    | some i =>
      match intsParse ps with
      | .error e => .error e
      | .ok is2 => .ok (i :: is2)

/-- One line of index.tsv: [token, DF, postings] = line.split(TAB) (an
unpack of anything but exactly three pieces is an uncaught ValueError),
postings stripped of its bracket and trailing characters, split on
comma-space and parsed with int(), DF parsed with int(). -/
def parseIndexLine (l : List Char) : Except Unit (String × DEntry) :=
  match splitOnChar '\t' l with
  | [tok, df, post] =>
    match intsParse (splitCS (sliceInner post)) with
    | .error e => .error e
    | .ok ps =>
      match pyIntParse df with
      | none => .error ()
      | some dfv => .ok (String.mk tok, ⟨dfv, ps⟩)
  | _ => .error ()

/-- One line of docIndex.tsv: [docId, docString] = line.split(TAB), the
docId parsed with int(), the docString with its last two characters
removed (the newline and the character before it). -/
def parseDocLine (l : List Char) : Except Unit (Int × String) :=
  match splitOnChar '\t' l with
  | [a, b] =>
    match pyIntParse a with
    | none => .error ()
    | some i => .ok (i, String.mk (sliceToLenSub2 b))
  | _ => .error ()

/-- Parse every line; the first failure aborts (uncaught exception). -/
def parseLines {α : Type} (f : List Char → Except Unit α) :
    List (List Char) → Except Unit (List α)
  | [] => .ok []
  | l :: ls =>
    match f l with
    | .error e => .error e
    | .ok a =>
      match parseLines f ls with
      | .error e => .error e
      | .ok as2 => .ok (a :: as2)

/-- buildIndexes, index side: read index.tsv line by line, assigning
index[token] = entry into a dict. -/
def deserializeIndexLines (lines : List (List Char)) :
    Except Unit (List (String × DEntry)) :=
  match parseLines parseIndexLine lines with
  | .error e => .error e
  | .ok ps => .ok (ps.foldl (fun acc p => pyDictSet acc p.1 p.2) [])

/-- buildIndexes, document side: read docIndex.tsv line by line, assigning
docIndex[int(docId)] = trimmed docString into a dict. -/
def deserializeDocIndexLines (lines : List (List Char)) :
    Except Unit (List (Int × String)) :=
  match parseLines parseDocLine lines with
  | .error e => .error e
  | .ok ps => .ok (ps.foldl (fun acc p => pyDictSet acc p.1 p.2) [])

/-- The two ways parseQuery can abort: term[0] on an empty term raises an
uncaught IndexError; a lone delimiter token prints a message and exits. -/
inductive QueryError
  | indexError | parseError
deriving DecidableEq, Repr

/-- The term loop of parseQuery, carrying keywords, phrases, the phrase
buffer and the isPhrase flag.  Each branch mirrors one path of the source:
a term starting with the delimiter toggles the flag and, when that closes
a phrase, flushes the buffer; a bare delimiter exits; then the (updated)
flag selects phrase accumulation or keyword collection. -/
def parseLoop (kws phs : List String) (ph : String) (isPh : Bool) :
    List String → Except QueryError (List String × List String)
  | [] => .ok (kws, phs)
  | term :: rest =>
    match term.data with
    | [] => .error .indexError
    | c :: cs =>
      if c = ':' then
        -- the flag toggles to !isPh; when that closes a phrase the buffer is
        -- flushed; a bare delimiter then exits (the flush it performed is
        -- discarded with the whole run, so the exit is taken first here)
        if cs = [] then .error .parseError
        else if isPh then
          -- toggled to outside: buffer flushed, then the keyword branch of
          -- the second block appends the raw term
          parseLoop (kws ++ [term]) (phs ++ [pyStrip ph]) "" false rest
        else
          -- toggled to inside: the second block sees the delimiter-led term
          if (c :: cs).getLast? = some ':' then
            parseLoop kws (phs ++ [pyStrip (String.mk cs.dropLast)]) "" true rest
          else parseLoop kws phs (ph ++ String.mk cs ++ " ") true rest
      else if isPh then
        if (c :: cs).getLast? = some ':' then
          parseLoop kws (phs ++ [pyStrip (ph ++ String.mk (c :: cs).dropLast ++ " ")]) "" false rest
        else parseLoop kws phs (ph ++ term ++ " ") isPh rest
      else parseLoop (kws ++ [term]) phs ph isPh rest

/-- parseQuery(query): split the raw query terms into keywords and phrases. -/
def parseQuery (query : List String) : Except QueryError (List String × List String) :=
  parseLoop [] [] "" false query

/-- The term loop of getPhraseResults: intersect the postings lists of the
phrase's terms with the candidate docs; a term absent from the index breaks
out of the loop, leaving the candidates intersected so far.  Intersection
is a set operation; it is modelled as an order-preserving filter, which
yields the same result sets (only membership and counts are consumed). -/
def intersectTerms (index : List (String × DEntry)) (docs : List Int) :
    List String → List Int
  | [] => docs
  | t :: ts =>
    match index.lookup t with
    | none => docs
    | some e => intersectTerms index (docs.filter (fun d => e.postings.contains d)) ts

/-- The doc loop of getPhraseResults for one phrase: a doc whose docString
contains the stripped phrase as a substring joins phraseResults (if not
already there); every surviving doc joins consideredDocs (if not already
there).  docIndex[doc] cannot fail since the candidates are drawn from the
docIndex keys; the lookup default is never used. -/
def phraseDocLoop (docIndex : List (Int × String)) (phrase : String) :
    List Int → List Int × List Int → List Int × List Int
  | [], acc => acc
  | d :: ds, (pr, cons) =>
    let text := ((docIndex.lookup d).getD "").data
    let pr2 := if containsSub (pyStrip phrase).data text && !(pr.contains d)
               then pr ++ [d] else pr
    let cons2 := if cons.contains d then cons else cons ++ [d]
    phraseDocLoop docIndex phrase ds (pr2, cons2)

/-- The phrase loop of getPhraseResults. -/
def phraseLoop (index : List (String × DEntry)) (docIndex : List (Int × String)) :
    List String → List Int × List Int → List Int × List Int
  | [], acc => acc
  | p :: ps, acc =>
    let docs := intersectTerms index (docIndex.map Prod.fst) (pySplit p)
    phraseLoop index docIndex ps (phraseDocLoop docIndex p docs acc)

/-- getPhraseResults(index, docIndex, phrases): with no phrases, all docIds
sorted and the total document count; otherwise the docs that contain some
phrase (sorted) and how many docs were considered. -/
def getPhraseResults (index : List (String × DEntry))
    (docIndex : List (Int × String)) (phrases : List String) : List Int × Nat :=
  if phrases = [] then (sortAsc (docIndex.map Prod.fst), docIndex.length)
  else
    let (pr, cons) := phraseLoop index docIndex phrases ([], [])
    (sortAsc pr, cons.length)

/-- scores = dict with scores[doc] = 0 for doc in docs (re-assignment of a
duplicate doc keeps its position and value). -/
def initScores (docs : List Int) : List (Int × ℚ) :=
  docs.foldl (fun acc d => pyDictSet acc d 0) []

/-- lengths[doc] = len(docIndex[doc].split()); a doc absent from docIndex
is an uncaught KeyError. -/
def initLengths (docIndex : List (Int × String)) :
    List Int → List (Int × ℚ) → Except Unit (List (Int × ℚ))
  | [], acc => .ok acc
  | d :: ds, acc =>
    match docIndex.lookup d with
    | none => .error ()
    | some s =>
      initLengths docIndex ds (pyDictSet acc d ((pySplitChars s.data).length : ℚ))

/-- One keyword's pass of cosineScore: a term absent from the index is
skipped; otherwise every scores entry whose doc lies in both the term's
postings and docs gains termWeight.  (The KeyError fallback writing
scores[doc] = termWeight is unreachable: intersect only contains docs, and
every doc is a scores key.) -/
def applyTerm (index : List (String × DEntry)) (docs : List Int) (w : ℚ)
    (sc : List (Int × ℚ)) (t : String) : List (Int × ℚ) :=
  match index.lookup t with
  | none => sc
  | some e =>
    sc.map (fun p =>
      if e.postings.contains p.1 && docs.contains p.1 then (p.1, p.2 + w) else p)

/-- cosineScores[doc] = scores[doc] / lengths[doc] over the lengths keys in
order; a zero length raises ZeroDivisionError (scores[doc] exists for every
lengths key, so the lookup default is never used). -/
def divideScores (scores : List (Int × ℚ)) :
    List (Int × ℚ) → Except Unit (List (Int × ℚ))
  | [] => .ok []
  | (d, len) :: rest =>
    if len = 0 then .error ()
    else
      match divideScores scores rest with
      | .error e => .error e
      | .ok cs => .ok ((d, ((scores.lookup d).getD 0) / len) :: cs)

/-- Stable insertion keeping values descending (Python sorted with
reverse=True is stable: an element goes after every earlier element whose
value is at least its own). -/
def insertDescQ (p : Int × ℚ) : List (Int × ℚ) → List (Int × ℚ)
  | [] => [p]
  | q :: qs => if q.2 < p.2 then p :: q :: qs else q :: insertDescQ p qs

/-- Python sorted(items, key=value, reverse=True): stable descending sort. -/
def sortDescQ (l : List (Int × ℚ)) : List (Int × ℚ) :=
  l.foldl (fun acc p => insertDescQ p acc) []

/-- cosineScore(index, docIndex, keywords, docs, numResults): initialise
scores and lengths over docs, add 1/len(keywords) per keyword to each
candidate in that keyword's postings, divide by document length, sort
descending, keep strictly positive scores, and return the first numResults
entries together with the non-zero count. -/
def cosineScore (index : List (String × DEntry)) (docIndex : List (Int × String))
    (keywords : List String) (docs : List Int) (numResults : Nat) :
    Except Unit (List (Int × ℚ) × Nat) :=
  match initLengths docIndex docs [] with
  | .error e => .error e
  | .ok lengths =>
    match divideScores
        (keywords.foldl (applyTerm index docs (1 / (keywords.length : ℚ)))
          (initScores docs)) lengths with
    | .error e => .error e
    | .ok cs =>
      .ok (((sortDescQ cs).filter (fun p => 0 < p.2)).take numResults,
        ((sortDescQ cs).filter (fun p => 0 < p.2)).length)

/- Basic facts about the string and character model. -/

theorem strExt {a b : String} (h : a.data = b.data) : a = b := by
  cases a; cases b; cases h; rfl

theorem strNeEmptyIffData {s : String} : s ≠ "" ↔ s.data ≠ [] := by
  constructor
  · intro h hd
    exact h (strExt hd)
  · intro h hd
    subst hd
    exact h rfl

theorem tokenChar_pyToLower {c : Char} (h : isWordChar c = true) :
    isTokenChar (pyToLower c) = true := by
  simp only [isWordChar, isDigitC, isLowerC, isUpperC, Bool.or_eq_true,
    decide_eq_true_eq] at h
  repeat' rcases h with h | h
  all_goals decide

theorem tokenChar_ne {c : Char} (h : isTokenChar c = true) :
    c ≠ '\t' ∧ c ≠ '\n' ∧ isWsC c = false := by
  refine ⟨?_, ?_, ?_⟩
  · intro he; subst he; exact absurd h (by decide)
  · intro he; subst he; exact absurd h (by decide)
  · cases hw : isWsC c with
    | false => rfl
    | true =>
      simp only [isWsC, Bool.or_eq_true, decide_eq_true_eq] at hw
      repeat' rcases hw with hw | hw
      all_goals (exact absurd h (by decide))

/- Facts about the whitespace splitter: every produced unit is non-empty
and contains no whitespace. -/

theorem splitWsGo_mem {l : List Char} :
    ∀ {cur t}, (∀ c ∈ cur, isWsC c = false) → t ∈ splitWsGo cur l →
      t ≠ [] ∧ ∀ c ∈ t, isWsC c = false := by
  induction l with
  | nil =>
    intro cur t hcur ht
    unfold splitWsGo at ht
    split at ht
    · simp at ht
    · rename_i hc
      simp only [List.mem_singleton] at ht
      subst ht
      refine ⟨by simpa using hc, ?_⟩
      intro c hc2
      exact hcur c (List.mem_reverse.mp hc2)
  | cons c rest ih =>
    intro cur t hcur ht
    unfold splitWsGo at ht
    split at ht
    · rename_i hws
      split at ht
      · exact ih (by intro c hc; cases hc) ht
      · rename_i hc
        rcases List.mem_cons.mp ht with h | h
        · subst h
          refine ⟨by simpa using hc, ?_⟩
          intro x hx
          exact hcur x (List.mem_reverse.mp hx)
        · exact ih (by intro x hx; cases hx) h
    · rename_i hws
      refine ih ?_ ht
      intro x hx
      rcases List.mem_cons.mp hx with h | h
      · subst h; simpa using hws
      · exact hcur x h

theorem zoneTokens_mem {v : String} {r : String} (hr : r ∈ zoneTokens v) :
    r.data ≠ [] ∧ ∀ c ∈ r.data, isWsC c = false := by
  unfold zoneTokens pySplitChars at hr
  rcases List.mem_map.mp hr with ⟨t, ht, rfl⟩
  exact splitWsGo_mem (by intro c hc; cases hc) ht

/-- Every token produced by the tokenizer is non-empty and made of
lowercase word characters (digits, lowercase letters, underscore). -/
theorem tokenChars_of_mem {v t : String} (ht : t ∈ tokenizeZone v) :
    t ≠ "" ∧ ∀ c ∈ t.data, isTokenChar c = true := by
  unfold tokenizeZone at ht
  rcases List.mem_filterMap.mp ht with ⟨r, hr, hsel⟩
  simp only at hsel
  split at hsel
  · cases hsel
  · rename_i hne
    cases hsel
    refine ⟨hne, ?_⟩
    intro c hc
    unfold normalizeToken at hc
    simp only [List.mem_map] at hc
    rcases hc with ⟨c0, hc0, rfl⟩
    have hc0m := List.mem_filter.mp hc0
    have hword : isWordChar c0 = true := by
      rcases Bool.or_eq_true _ _ |>.mp hc0m.2 with h | h
      · exact h
      · have := (zoneTokens_mem hr).2 c0 hc0m.1
        rw [this] at h
        cases h
    exact tokenChar_pyToLower hword

/-- filterMap with an emptiness guard is the same as map followed by
filtering out the excluded value. -/
theorem filterMap_if_eq {α β : Type} [DecidableEq β] (f : α → β) (e : β) (l : List α) :
    l.filterMap (fun r => if f r = e then none else some (f r)) =
      (l.map f).filter (fun b => b ≠ e) := by
  induction l with
  | nil => rfl
  | cons a as ih =>
    simp only [List.filterMap_cons, List.map_cons, List.filter_cons]
    by_cases h : f a = e
    · rw [if_pos h, ih]
      have hd : (decide (f a ≠ e)) = false := by simp [h]
      rw [hd]
      simp
    · rw [if_neg h, ih]
      have hd : (decide (f a ≠ e)) = true := by simp [h]
      rw [hd]
      simp

/-- The token sequence is order-preserving: it is the per-unit
normalization of the split units with empty results removed. -/
theorem tokenizeZone_eq_map_filter (v : String) :
    tokenizeZone v = ((zoneTokens v).map normalizeToken).filter (fun t => t ≠ "") := by
  unfold tokenizeZone
  exact filterMap_if_eq normalizeToken "" (zoneTokens v)

/-- Did the computation succeed (sys.exit and uncaught exceptions are
modelled as the error case)? -/
def exOk {ε α : Type} : Except ε α → Bool
  | .ok _ => true
  | .error _ => false

/- parseQuery lemmas: every term that is neither empty nor a bare
delimiter advances the loop; a bare delimiter exits with the parse error
and an empty term raises the index error. -/



theorem parseLoop_cons (kws phs : List String) (ph : String) (b : Bool)
    {term : String} {c : Char} {cs : List Char} (hd : term.data = c :: cs)
    (rest : List String) :
    parseLoop kws phs ph b (term :: rest) =
      (if c = ':' then
        if cs = [] then .error .parseError
        else if b then
          parseLoop (kws ++ [term]) (phs ++ [pyStrip ph]) "" false rest
        else
          if (c :: cs).getLast? = some ':' then
            parseLoop kws (phs ++ [pyStrip (String.mk cs.dropLast)]) "" true rest
          else parseLoop kws phs (ph ++ String.mk cs ++ " ") true rest
      else if b then
        if (c :: cs).getLast? = some ':' then
          parseLoop kws (phs ++ [pyStrip (ph ++ String.mk (c :: cs).dropLast ++ " ")]) "" false rest
        else parseLoop kws phs (ph ++ term ++ " ") b rest
      else parseLoop (kws ++ [term]) phs ph b rest) := by
  rw [parseLoop, hd]

theorem parseLoop_step {term : String} (h1 : term ≠ ":") (h2 : term ≠ "")
    (kws phs : List String) (ph : String) (b : Bool) (rest : List String) :
    ∃ kws2 phs2 ph2 b2,
      parseLoop kws phs ph b (term :: rest) = parseLoop kws2 phs2 ph2 b2 rest := by
  obtain ⟨c, cs, hd⟩ : ∃ c cs, term.data = c :: cs := by
    cases hdata : term.data with
    | nil => exact absurd (strExt hdata) h2
    | cons c cs => exact ⟨c, cs, rfl⟩
  rw [parseLoop_cons kws phs ph b hd rest]
  by_cases hc : c = ':'
  · have hcs : cs ≠ [] := by
      intro h0
      exact h1 (strExt (by rw [hd, hc, h0]))
    rw [if_pos hc, if_neg hcs]
    cases b
    · simp only [Bool.false_eq_true, if_false]
      by_cases hl : (c :: cs).getLast? = some ':'
      · exact ⟨_, _, _, _, if_pos hl⟩
      · exact ⟨_, _, _, _, if_neg hl⟩
    · simp only [if_true]
      exact ⟨_, _, _, _, rfl⟩
  · rw [if_neg hc]
    cases b
    · simp only [Bool.false_eq_true, if_false]
      exact ⟨_, _, _, _, rfl⟩
    · simp only [if_true]
      by_cases hl : (c :: cs).getLast? = some ':'
      · exact ⟨_, _, _, _, if_pos hl⟩
      · exact ⟨_, _, _, _, if_neg hl⟩

theorem parseLoop_bare (kws phs : List String) (ph : String) (b : Bool)
    (rest : List String) :
    parseLoop kws phs ph b (":" :: rest) = .error .parseError := rfl

theorem parseLoop_emptyTerm (kws phs : List String) (ph : String) (b : Bool)
    (rest : List String) :
    parseLoop kws phs ph b ("" :: rest) = .error .indexError := rfl

theorem parseLoop_stuck {q : List String} (h : ":" ∈ q ∨ "" ∈ q) :
    ∀ kws phs ph b, exOk (parseLoop kws phs ph b q) = false := by
  induction q with
  | nil => rcases h with h | h <;> cases h
  | cons term rest ih =>
    intro kws phs ph b
    by_cases ht1 : term = ":"
    · subst ht1; rw [parseLoop_bare]; rfl
    · by_cases ht2 : term = ""
      · subst ht2; rw [parseLoop_emptyTerm]; rfl
      · have hr : ":" ∈ rest ∨ "" ∈ rest := by
          rcases h with h | h
          · rcases List.mem_cons.mp h with h | h
            · exact absurd h.symm ht1
            · exact Or.inl h
          · rcases List.mem_cons.mp h with h | h
            · exact absurd h.symm ht2
            · exact Or.inr h
        obtain ⟨k2, p2, h2, b2, hstep⟩ := parseLoop_step ht1 ht2 kws phs ph b rest
        rw [hstep]
        exact ih hr k2 p2 h2 b2

theorem parseLoop_loneDelim {q : List String} (hne : ∀ t ∈ q, t ≠ "")
    (hmem : ":" ∈ q) : ∀ kws phs ph b,
    parseLoop kws phs ph b q = .error .parseError := by
  induction q with
  | nil => cases hmem
  | cons term rest ih =>
    intro kws phs ph b
    by_cases ht1 : term = ":"
    · subst ht1; exact parseLoop_bare kws phs ph b rest
    · have ht2 : term ≠ "" := hne term (List.mem_cons_self term rest)
      have hr : ":" ∈ rest := by
        rcases List.mem_cons.mp hmem with h | h
        · exact absurd h.symm ht1
        · exact h
      obtain ⟨k2, p2, h2, b2, hstep⟩ := parseLoop_step ht1 ht2 kws phs ph b rest
      rw [hstep]
      exact ih (fun t htm => hne t (List.mem_cons_of_mem term htm)) hr k2 p2 h2 b2

theorem parseLoop_emptyTok {q : List String} (hnc : ∀ t ∈ q, t ≠ ":")
    (hmem : "" ∈ q) : ∀ kws phs ph b,
    parseLoop kws phs ph b q = .error .indexError := by
  induction q with
  | nil => cases hmem
  | cons term rest ih =>
    intro kws phs ph b
    by_cases ht2 : term = ""
    · subst ht2; exact parseLoop_emptyTerm kws phs ph b rest
    · have ht1 : term ≠ ":" := hnc term (List.mem_cons_self term rest)
      have hr : "" ∈ rest := by
        rcases List.mem_cons.mp hmem with h | h
        · exact absurd h.symm ht2
        · exact h
      obtain ⟨k2, p2, h2, b2, hstep⟩ := parseLoop_step ht1 ht2 kws phs ph b rest
      rw [hstep]
      exact ih (fun t htm => hnc t (List.mem_cons_of_mem term htm)) hr k2 p2 h2 b2

/-- Claim C4 (amended): a token wrapped on both ends by the delimiter is
captured as a complete phrase immediately, but the inside-phrase flag has
been toggled on and is not restored, so a following plain token is
accumulated into the phrase buffer instead of being appended as an
individual keyword: the keyword list stays empty. -/
theorem claim_C4_singleTokenPhrase (w t : List Char) (hw : w ≠ []) (ht : t ≠ [])
    (hth : t.head? ≠ some ':') (htl : t.getLast? ≠ some ':') :
    parseQuery [String.mk (':' :: (w ++ [':'])), String.mk t] =
      .ok ([], [pyStrip (String.mk w)]) := by
  obtain ⟨c2, cs2, ht2⟩ : ∃ c cs, t = c :: cs := by
    cases t with
    | nil => exact absurd rfl ht
    | cons c cs => exact ⟨c, cs, rfl⟩
  have hc2 : c2 ≠ ':' := by
    intro h0
    exact hth (by rw [ht2, h0]; rfl)
  unfold parseQuery
  rw [parseLoop_cons [] [] "" false (rfl :
        (String.mk (':' :: (w ++ [':']))).data = ':' :: (w ++ [':'])) _]
  rw [if_pos rfl]
  have hcs : w ++ [':'] ≠ [] := by
    intro h0
    exact hw (List.append_eq_nil.mp h0).1
  rw [if_neg hcs]
  simp only [Bool.false_eq_true, if_false]
  have hlast : (':' :: (w ++ [':'])).getLast? = some ':' := by
    rw [show ':' :: (w ++ [':']) = (':' :: w) ++ [':'] from rfl]
    exact List.getLast?_concat _
  rw [if_pos hlast]
  rw [show (w ++ [':']).dropLast = w from List.dropLast_concat]
  subst ht2
  rw [parseLoop_cons _ _ _ _ (rfl : (String.mk (c2 :: cs2)).data = c2 :: cs2) _]
  rw [if_neg hc2]
  simp only [if_true]
  rw [if_neg htl]
  rw [parseLoop]
  simp

/-- Claim C4 counterexample: after the single-token phrase ":abc:" the
parser is inside-phrase, so the following plain token "dog" is not
appended as a keyword — the keyword list comes back empty. -/
theorem claim_C4_cex :
    parseQuery [":abc:", "dog"] = .ok ([], ["abc"]) ∧
      ("dog" : String) ∉ ([] : List String) :=
  ⟨rfl, by decide⟩

theorem claim_C4_wit :
    (['a', 'b', 'c'] : List Char) ≠ [] ∧ (['d', 'o', 'g'] : List Char) ≠ [] ∧
    (['d', 'o', 'g'] : List Char).head? ≠ some ':' ∧
    (['d', 'o', 'g'] : List Char).getLast? ≠ some ':' ∧
    parseQuery [String.mk (':' :: (['a', 'b', 'c'] ++ [':'])), String.mk ['d', 'o', 'g']] =
      .ok ([], [pyStrip (String.mk ['a', 'b', 'c'])]) :=
  ⟨by decide, by decide, by decide, by decide,
    claim_C4_singleTokenPhrase _ _ (by decide) (by decide) (by decide) (by decide)⟩

/-- Claim C5: a query token list containing a token that is exactly the
phrase delimiter alone never yields a (keywords, phrases) result, and
(whenever no token is empty, which would crash earlier with the index
error of C9) parsing exits with the parse error. -/
theorem claim_C5_loneDelim (query : List String) :
    (":" ∈ query → exOk (parseQuery query) = false) ∧
    ((∀ t ∈ query, t ≠ "") → ":" ∈ query → parseQuery query = .error .parseError) := by
  constructor
  · intro h
    exact parseLoop_stuck (Or.inl h) [] [] "" false
  · intro hne h
    exact parseLoop_loneDelim hne h [] [] "" false

theorem claim_C5_wit :
    (":" ∈ ([":"] : List String)) ∧ parseQuery [":"] = .error .parseError :=
  ⟨by decide, (claim_C5_loneDelim [":"]).2 (by decide) (by decide)⟩

/-- Claim C9: a query token list containing an empty-string token never
yields a result; parseQuery reads term[0] without checking non-emptiness,
so (whenever no token is a bare delimiter, which would exit earlier with
the parse error) it raises the unhandled indexing error. -/
theorem claim_C9_emptyToken (query : List String) :
    ("" ∈ query → exOk (parseQuery query) = false) ∧
    ((∀ t ∈ query, t ≠ ":") → "" ∈ query → parseQuery query = .error .indexError) := by
  constructor
  · intro h
    exact parseLoop_stuck (Or.inr h) [] [] "" false
  · intro hnc h
    exact parseLoop_emptyTok hnc h [] [] "" false

theorem claim_C9_wit :
    ("" ∈ ([""] : List String)) ∧ parseQuery [""] = .error .indexError :=
  ⟨by decide, (claim_C9_emptyToken [""]).2 (by decide) (by decide)⟩

/-- Claim C2 (amended): the tokenizer splits on whitespace, strips every
character that is not a word character (alphanumeric or underscore),
lowercases the remainder, and drops units that normalize to empty; the
token sequence is order-preserving and every produced token consists of
lowercase alphanumeric characters or underscores.  (Python w keeps the
underscore, so tokens are not purely alphanumeric.) -/
theorem claim_C2_tokenizer (v : String) :
    tokenizeZone v = ((zoneTokens v).map normalizeToken).filter (fun t => t ≠ "") ∧
    ∀ t ∈ tokenizeZone v, t ≠ "" ∧ ∀ c ∈ t.data, isTokenChar c = true :=
  ⟨tokenizeZone_eq_map_filter v, fun _ ht => tokenChars_of_mem ht⟩

/-- Claim C2 counterexample: the unit "A_b!" tokenizes to "a_b", which
keeps the underscore — a character that is not alphanumeric — so tokens do
not contain only lowercase alphanumeric characters. -/
theorem claim_C2_cex :
    tokenizeZone "A_b!" = ["a_b"] ∧ '_' ∈ ("a_b" : String).data ∧
      (isDigitC '_' || isLowerC '_' || isUpperC '_') = false := by
  decide

theorem claim_C2_wit :
    ("fox" ∈ tokenizeZone "The FOX!") ∧
      ("fox" ≠ "" ∧ ∀ c ∈ ("fox" : String).data, isTokenChar c = true) :=
  ⟨by decide, (claim_C2_tokenizer "The FOX!").2 "fox" (by decide)⟩

/- Sorting lemmas shared by several claims. -/

theorem insertAsc_perm (x : Int) (l : List Int) :
    List.Perm (insertAsc x l) (x :: l) := by
  induction l with
  | nil => exact List.Perm.refl _
  | cons y ys ih =>
    rw [insertAsc]
    split
    · exact List.Perm.refl _
    · exact ((ih.cons y).trans (List.Perm.swap x y ys))

theorem sortAsc_perm (l : List Int) : List.Perm (sortAsc l) l := by
  induction l with
  | nil => exact List.Perm.refl _
  | cons y ys ih =>
    exact (insertAsc_perm y (sortAsc ys)).trans (ih.cons y)

theorem mem_sortAsc {x : Int} {l : List Int} : x ∈ sortAsc l ↔ x ∈ l :=
  (sortAsc_perm l).mem_iff

/- Phrase-resolution lemmas. -/

theorem intersectTerms_subset {index : List (String × DEntry)} {docs : List Int}
    {ts : List String} : ∀ d ∈ intersectTerms index docs ts, d ∈ docs := by
  induction ts generalizing docs with
  | nil => intro d hd; exact hd
  | cons t ts ih =>
    intro d hd
    rw [intersectTerms] at hd
    cases h : index.lookup t with
    | none => rw [h] at hd; exact hd
    | some e =>
      rw [h] at hd
      exact List.mem_filter.mp (ih d hd) |>.1

theorem phraseDocLoop_inv {docIndex : List (Int × String)} {phrase : String}
    (P : Int → Prop)
    (hP : ∀ d, containsSub (pyStrip phrase).data ((docIndex.lookup d).getD "").data = true → P d) :
    ∀ (ds : List Int) (pr cons : List Int), (∀ d ∈ pr, P d) →
      ∀ d ∈ (phraseDocLoop docIndex phrase ds (pr, cons)).1, P d := by
  intro ds
  induction ds with
  | nil => intro pr cons hpr d hd; exact hpr d hd
  | cons d0 ds ih =>
    intro pr cons hpr d hd
    rw [phraseDocLoop] at hd
    refine ih _ _ ?_ d hd
    intro d1 hd1
    split at hd1
    · rename_i hcond
      rcases List.mem_append.mp hd1 with h | h
      · exact hpr d1 h
      · have : d1 = d0 := by simpa using h
        subst this
        exact hP d1 (Bool.and_eq_true _ _ |>.mp hcond).1
    · exact hpr d1 hd1

theorem phraseLoop_inv {index : List (String × DEntry)} {docIndex : List (Int × String)}
    (phrasesAll : List String) :
    ∀ (ps : List String), (∀ p ∈ ps, p ∈ phrasesAll) →
      ∀ (acc : List Int × List Int),
        (∀ d ∈ acc.1, ∃ p ∈ phrasesAll,
          containsSub (pyStrip p).data ((docIndex.lookup d).getD "").data = true) →
        ∀ d ∈ (phraseLoop index docIndex ps acc).1, ∃ p ∈ phrasesAll,
          containsSub (pyStrip p).data ((docIndex.lookup d).getD "").data = true := by
  intro ps
  induction ps with
  | nil => intro _ acc hacc d hd; exact hacc d hd
  | cons p ps ih =>
    intro hsub acc hacc d hd
    rw [phraseLoop] at hd
    refine ih (fun q hq => hsub q (List.mem_cons_of_mem p hq)) _ ?_ d hd
    obtain ⟨pr, cons⟩ := acc
    intro d1 hd1
    refine phraseDocLoop_inv _ ?_ _ pr cons hacc d1 hd1
    intro d2 h2
    exact ⟨p, hsub p (List.mem_cons_self p ps), h2⟩

/-- Claim C6 (amended): when a phrase contains a term absent from the
inverted index the intersection loop stops early and the remaining
candidates are not filtered by postings, so the phrase can still
contribute documents; what remains guaranteed is that every document in
the phrase-result list contains some queried phrase (trimmed) as a
contiguous substring of its stored normalizedText. -/
theorem claim_C6_phraseSubstring (index : List (String × DEntry))
    (docIndex : List (Int × String)) (phrases : List String) (hps : phrases ≠ []) :
    ∀ d ∈ (getPhraseResults index docIndex phrases).1,
      ∃ p ∈ phrases,
        containsSub (pyStrip p).data ((docIndex.lookup d).getD "").data = true := by
  intro d hd
  unfold getPhraseResults at hd
  rw [if_neg hps] at hd
  simp only at hd
  have hd2 := mem_sortAsc.mp hd
  exact phraseLoop_inv phrases phrases (fun p hp => hp) ([], [])
    (by intro d0 hd0; cases hd0) d hd2

/-- Claim C6 counterexample: the phrase "ello" has its only term absent
from the inverted index, yet it contributes document 1 (the break leaves
the full candidate set, and "ello" is a substring of "hello "). -/
theorem claim_C6_cex :
    (List.lookup "ello" [("hello", (⟨1, [1]⟩ : DEntry))]) = none ∧
      getPhraseResults [("hello", ⟨1, [1]⟩)] [(1, "hello ")] ["ello"] = ([1], 1) := by
  constructor
  · rfl
  · rfl

theorem claim_C6_wit :
    (["quick brown"] : List String) ≠ [] ∧
      ∀ d ∈ (getPhraseResults [("quick", ⟨1, [1]⟩), ("brown", ⟨1, [1]⟩)]
          [(1, "the quick brown fox ")] ["quick brown"]).1,
        ∃ p ∈ (["quick brown"] : List String),
          containsSub (pyStrip p).data
            (((([(1, "the quick brown fox ")]) : List (Int × String)).lookup d).getD "").data = true :=
  ⟨by decide,
    claim_C6_phraseSubstring [("quick", ⟨1, [1]⟩), ("brown", ⟨1, [1]⟩)]
      [(1, "the quick brown fox ")] ["quick brown"] (by decide)⟩

/- Scorer lemmas (claim C7). -/

/-- Modelled on the spec formula: each keyword-list entry whose postings
contain the document contributes the uniform weight 1/len(keywords). -/
def specRawScore (index : List (String × DEntry)) (keywords : List String) (d : Int) : ℚ :=
  (keywords.map (fun t =>
    match index.lookup t with
    | none => (0 : ℚ)
    | some e => if e.postings.contains d then 1 / (keywords.length : ℚ) else 0)).sum

/-- Modelled on the spec formula: the raw score divided by the count of
whitespace-delimited tokens of the document's stored normalizedText. -/
def specNormScore (index : List (String × DEntry)) (docIndex : List (Int × String))
    (keywords : List String) (d : Int) : ℚ :=
  specRawScore index keywords d /
    ((pySplitChars ((docIndex.lookup d).getD "").data).length : ℚ)

theorem pyDictSet_fresh {α β : Type} [DecidableEq α] {acc : List (α × β)} {k : α}
    (h : k ∉ acc.map Prod.fst) (v : β) : pyDictSet acc k v = acc ++ [(k, v)] := by
  induction acc with
  | nil => rfl
  | cons p rest ih =>
    rw [pyDictSet]
    rw [if_neg]
    · rw [ih (fun hm => h (List.mem_cons_of_mem _ hm))]
      rfl
    · intro he
      subst he
      exact h (by simp)

theorem foldl_pyDictSet {α β : Type} [DecidableEq α] (f : α → β) :
    ∀ (l : List α) (acc : List (α × β)), l.Nodup →
      (∀ k ∈ l, k ∉ acc.map Prod.fst) →
      l.foldl (fun a d => pyDictSet a d (f d)) acc = acc ++ l.map (fun d => (d, f d)) := by
  intro l
  induction l with
  | nil => intro acc _ _; simp
  | cons d rest ih =>
    intro acc hnd hdisj
    rw [List.foldl_cons, pyDictSet_fresh (hdisj d (List.mem_cons_self d rest)) (f d)]
    rw [ih _ ((List.nodup_cons.mp hnd).2) ?_]
    · simp
    · intro k hk
      intro hmem
      rw [List.map_append] at hmem
      rcases List.mem_append.mp hmem with h | h
      · exact hdisj k (List.mem_cons_of_mem d hk) h
      · simp only [List.map_cons, List.map_nil, List.mem_singleton] at h
        subst h
        exact (List.nodup_cons.mp hnd).1 hk

theorem initScores_eq {docs : List Int} (hnd : docs.Nodup) :
    initScores docs = docs.map (fun d => (d, (0 : ℚ))) := by
  unfold initScores
  exact foldl_pyDictSet (fun _ => (0 : ℚ)) docs [] hnd (by intro k _ hk; cases hk)

theorem initLengths_eq {docIndex : List (Int × String)} :
    ∀ (docs : List Int) (acc : List (Int × ℚ)), docs.Nodup →
      (∀ d ∈ docs, d ∉ acc.map Prod.fst) →
      (∀ d ∈ docs, ∃ s, docIndex.lookup d = some s) →
      initLengths docIndex docs acc = .ok (acc ++ docs.map (fun d =>
        (d, ((pySplitChars ((docIndex.lookup d).getD "").data).length : ℚ)))) := by
  intro docs
  induction docs with
  | nil => intro acc _ _ _; simp [initLengths]
  | cons d rest ih =>
    intro acc hnd hdisj hlk
    obtain ⟨s, hs⟩ := hlk d (List.mem_cons_self d rest)
    rw [initLengths, hs]
    show initLengths docIndex rest (pyDictSet acc d ((pySplitChars s.data).length : ℚ)) = _
    rw [pyDictSet_fresh (hdisj d (List.mem_cons_self d rest)) _]
    rw [ih _ ((List.nodup_cons.mp hnd).2) ?_ (fun k hk => hlk k (List.mem_cons_of_mem d hk))]
    · simp [hs]
    · intro k hk hmem
      rw [List.map_append] at hmem
      rcases List.mem_append.mp hmem with h | h
      · exact hdisj k (List.mem_cons_of_mem d hk) h
      · simp only [List.map_cons, List.map_nil, List.mem_singleton] at h
        subst h
        exact (List.nodup_cons.mp hnd).1 hk

/-- Contribution of one keyword pass to one document's score. -/
def termContrib (index : List (String × DEntry)) (w : ℚ) (t : String) (d : Int) : ℚ :=
  match index.lookup t with
  | none => 0
  | some e => if e.postings.contains d then w else 0

theorem applyTerm_map {index : List (String × DEntry)} {docs : List Int} {w : ℚ}
    (f : Int → ℚ) (t : String) :
    applyTerm index docs w (docs.map (fun d => (d, f d))) t =
      docs.map (fun d => (d, f d + termContrib index w t d)) := by
  cases h : index.lookup t with
  | none =>
    simp only [applyTerm, termContrib, h]
    refine (List.map_congr_left ?_).symm
    intro d _
    simp
  | some e =>
    simp only [applyTerm, termContrib, h]
    rw [List.map_map]
    refine List.map_congr_left ?_
    intro d hd
    have hc : docs.contains d = true := List.elem_iff.mpr hd
    simp only [Function.comp]
    by_cases hp : e.postings.contains d = true
    · rw [hp, hc]
      simp
    · rw [Bool.not_eq_true] at hp
      rw [hp]
      simp

theorem foldl_applyTerm {index : List (String × DEntry)} {docs : List Int} {w : ℚ} :
    ∀ (ts : List String) (f : Int → ℚ),
      ts.foldl (applyTerm index docs w) (docs.map (fun d => (d, f d))) =
        docs.map (fun d => (d, f d + ((ts.map (fun t => termContrib index w t d)).sum))) := by
  intro ts
  induction ts with
  | nil =>
    intro f
    simp
  | cons t ts ih =>
    intro f
    rw [List.foldl_cons, applyTerm_map f t, ih (fun d => f d + termContrib index w t d)]
    refine List.map_congr_left ?_
    intro d _
    simp [add_assoc]

theorem divideScores_eq (scores : List (Int × ℚ)) (L : Int → ℚ) :
    ∀ (dl : List Int), (∀ d ∈ dl, L d ≠ 0) →
      divideScores scores (dl.map (fun d => (d, L d))) =
        .ok (dl.map (fun d => (d, ((scores.lookup d).getD 0) / L d))) := by
  intro dl
  induction dl with
  | nil => intro _; rfl
  | cons d rest ih =>
    intro hz
    rw [List.map_cons, divideScores]
    rw [if_neg (hz d (List.mem_cons_self d rest))]
    rw [ih (fun k hk => hz k (List.mem_cons_of_mem d hk))]
    rfl

theorem lookup_map_self {g : Int → ℚ} :
    ∀ {dl : List Int} {d : Int}, d ∈ dl →
      (dl.map (fun x => (x, g x))).lookup d = some (g d) := by
  intro dl
  induction dl with
  | nil => intro d hd; cases hd
  | cons x rest ih =>
    intro d hd
    by_cases he : x = d
    · subst he
      simp [List.lookup]
    · have hbe : (d == x) = false := by
        simp only [beq_eq_false_iff_ne, ne_eq]
        exact fun hh => he hh.symm
      rw [List.map_cons]
      simp only [List.lookup, hbe]
      rcases List.mem_cons.mp hd with h | h
      · exact absurd h.symm he
      · exact ih h

theorem insertDescQ_perm (p : Int × ℚ) (l : List (Int × ℚ)) :
    List.Perm (insertDescQ p l) (p :: l) := by
  induction l with
  | nil => exact List.Perm.refl _
  | cons q qs ih =>
    rw [insertDescQ]
    split
    · exact List.Perm.refl _
    · exact (ih.cons q).trans (List.Perm.swap p q qs)

theorem sortDescQ_perm (l : List (Int × ℚ)) : List.Perm (sortDescQ l) l := by
  have main : ∀ (l acc : List (Int × ℚ)),
      List.Perm (l.foldl (fun a p => insertDescQ p a) acc) (acc ++ l) := by
    intro l
    induction l with
    | nil => intro acc; simp
    | cons p ps ih =>
      intro acc
      rw [List.foldl_cons]
      refine (ih (insertDescQ p acc)).trans ?_
      refine (((insertDescQ_perm p acc).append_right ps).trans ?_)
      exact List.perm_middle.symm
  simpa using main l []

/-- Claim C7: for candidate documents (distinct, each present in the
forward index with at least one token of text) and a non-empty keyword
list, every returned entry carries the normalized score: the sum of the
uniform weight 1/len(keywords) over keyword entries whose postings contain
the document, divided by the document's whitespace-token count;
zero-scoring documents appear neither in the output nor in the non-zero
count, the count is exactly the number of positive-scoring candidates, and
at most numResults entries are returned. -/
theorem claim_C7_scorer (index : List (String × DEntry)) (docIndex : List (Int × String))
    (keywords : List String) (docs : List Int) (K : Nat)
    (hnd : docs.Nodup)
    (hdocs : ∀ d ∈ docs, ∃ s, docIndex.lookup d = some s ∧ pySplitChars s.data ≠ []) :
    ∃ res cnt, cosineScore index docIndex keywords docs K = .ok (res, cnt) ∧
      (∀ p ∈ res, p.1 ∈ docs ∧ p.2 = specNormScore index docIndex keywords p.1 ∧ 0 < p.2) ∧
      res.length ≤ K ∧
      cnt = (docs.filter (fun d => decide (0 < specNormScore index docIndex keywords d))).length ∧
      (∀ d ∈ docs, specNormScore index docIndex keywords d = 0 → ∀ p ∈ res, p.1 ≠ d) := by
  have hw : ∀ d ∈ docs, ((pySplitChars ((docIndex.lookup d).getD "").data).length : ℚ) ≠ 0 := by
    intro d hd
    obtain ⟨s, hs, hne⟩ := hdocs d hd
    rw [hs]
    simp only [Option.getD_some]
    have hlen : (pySplitChars s.data).length ≠ 0 :=
      fun h0 => hne (List.length_eq_zero.mp h0)
    exact_mod_cast Nat.cast_ne_zero.mpr hlen
  have h1 : initLengths docIndex docs [] = .ok (docs.map (fun d =>
      (d, ((pySplitChars ((docIndex.lookup d).getD "").data).length : ℚ)))) := by
    have := @initLengths_eq docIndex docs [] hnd
      (by intro d _ hmem; cases hmem)
      (fun d hd => (hdocs d hd).imp (fun s hs => hs.1))
    simpa using this
  have h2 : keywords.foldl (applyTerm index docs (1 / (keywords.length : ℚ)))
      (initScores docs) = docs.map (fun d => (d, specRawScore index keywords d)) := by
    rw [initScores_eq hnd, foldl_applyTerm]
    refine List.map_congr_left ?_
    intro d _
    rw [zero_add]
    rfl
  have h3 : divideScores (docs.map (fun d => (d, specRawScore index keywords d)))
      (docs.map (fun d =>
        (d, ((pySplitChars ((docIndex.lookup d).getD "").data).length : ℚ)))) =
      .ok (docs.map (fun d => (d, specNormScore index docIndex keywords d))) := by
    rw [divideScores_eq _ _ docs hw]
    congr 1
    refine List.map_congr_left ?_
    intro d hd
    rw [lookup_map_self hd]
    rfl
  refine ⟨((sortDescQ (docs.map (fun d => (d, specNormScore index docIndex keywords d)))).filter
      (fun p => decide (0 < p.2))).take K,
    ((sortDescQ (docs.map (fun d => (d, specNormScore index docIndex keywords d)))).filter
      (fun p => decide (0 < p.2))).length, ?_, ?_, ?_, ?_, ?_⟩
  · simp only [cosineScore, h1, h2, h3]
  · intro p hp
    have hp1 : p ∈ (sortDescQ (docs.map (fun d =>
        (d, specNormScore index docIndex keywords d)))).filter (fun p => decide (0 < p.2)) :=
      List.take_subset K _ hp
    have hp2 := List.mem_filter.mp hp1
    have hp3 : p ∈ docs.map (fun d => (d, specNormScore index docIndex keywords d)) :=
      ((sortDescQ_perm _).mem_iff).mp hp2.1
    obtain ⟨d, hd, hpd⟩ := List.mem_map.mp hp3
    have hpos : 0 < p.2 := of_decide_eq_true hp2.2
    subst hpd
    exact ⟨hd, rfl, hpos⟩
  · exact List.length_take_le K _
  · rw [((sortDescQ_perm _).filter _).length_eq, List.filter_map, List.length_map]
    rfl
  · intro d hd hz p hp
    have hp1 : p ∈ (sortDescQ (docs.map (fun d =>
        (d, specNormScore index docIndex keywords d)))).filter (fun p => decide (0 < p.2)) :=
      List.take_subset K _ hp
    have hp2 := List.mem_filter.mp hp1
    have hp3 : p ∈ docs.map (fun d => (d, specNormScore index docIndex keywords d)) :=
      ((sortDescQ_perm _).mem_iff).mp hp2.1
    obtain ⟨d2, _, hpd⟩ := List.mem_map.mp hp3
    have hpos : 0 < p.2 := of_decide_eq_true hp2.2
    intro heq
    subst hpd
    simp only at heq
    rw [heq] at hpos
    rw [hz] at hpos
    exact lt_irrefl 0 hpos

theorem claim_C7_wit :
    ([1, 2, 3, 4] : List Int).Nodup ∧
    (∃ res cnt,
      cosineScore [("fox", ⟨1, [1, 3]⟩), ("dog", ⟨1, [2]⟩)]
          [(1, "the fox "), (2, "a dog barks "), (3, "fox fox "), (4, "nothing ")]
          ["fox", "dog"] [1, 2, 3, 4] 10 = .ok (res, cnt) ∧
      (∀ p ∈ res, p.1 ∈ ([1, 2, 3, 4] : List Int) ∧
        p.2 = specNormScore [("fox", ⟨1, [1, 3]⟩), ("dog", ⟨1, [2]⟩)]
          [(1, "the fox "), (2, "a dog barks "), (3, "fox fox "), (4, "nothing ")]
          ["fox", "dog"] p.1 ∧ 0 < p.2) ∧
      res.length ≤ 10 ∧
      cnt = (([1, 2, 3, 4] : List Int).filter (fun d =>
        decide (0 < specNormScore [("fox", ⟨1, [1, 3]⟩), ("dog", ⟨1, [2]⟩)]
          [(1, "the fox "), (2, "a dog barks "), (3, "fox fox "), (4, "nothing ")]
          ["fox", "dog"] d))).length ∧
      (∀ d ∈ ([1, 2, 3, 4] : List Int),
        specNormScore [("fox", ⟨1, [1, 3]⟩), ("dog", ⟨1, [2]⟩)]
          [(1, "the fox "), (2, "a dog barks "), (3, "fox fox "), (4, "nothing ")]
          ["fox", "dog"] d = 0 → ∀ p ∈ res, p.1 ≠ d)) :=
  ⟨by decide,
    claim_C7_scorer _ _ _ _ _ (by decide)
      (by
        intro d hd
        simp only [List.mem_cons, List.not_mem_nil, or_false] at hd
        rcases hd with rfl | rfl | rfl | rfl
        · exact ⟨"the fox ", rfl, by decide⟩
        · exact ⟨"a dog barks ", rfl, by decide⟩
        · exact ⟨"fox fox ", rfl, by decide⟩
        · exact ⟨"nothing ", rfl, by decide⟩)⟩

/- Build-abort lemmas (claim C8). -/

/-- The document identifier a document declares: the value of its first
doc_id field parsed with int(); none when the field is missing, null, or
unparsable. -/
def docIdOf : List (String × Option String) → Option Int
  | [] => none
  | kv :: rest =>
    if kv.1 = "doc_id" then kv.2.bind (fun s => pyIntParse s.data)
    else docIdOf rest

/-- The four validation violations of the spec: a document with at most
one field, a null or empty zone content, a document with no doc_id field,
or two documents declaring the same identifier. -/
def hasViolation (corpus : List (List (String × Option String))) : Prop :=
  (∃ d ∈ corpus, d.length ≤ 1) ∨
  (∃ d ∈ corpus, ∃ kv ∈ d, kv.2 = none ∨ kv.2 = some "") ∨
  (∃ d ∈ corpus, ∀ kv ∈ d, kv.1 ≠ "doc_id") ∨
  (∃ pre d1 mid d2 post n, corpus = pre ++ d1 :: (mid ++ d2 :: post) ∧
    docIdOf d1 = some n ∧ docIdOf d2 = some n)

theorem processField_none (fs : FState) (k : String) :
    processField fs (k, none) = .error .emptyZone := rfl

theorem processField_emptyStr (fs : FState) (k : String) :
    processField fs (k, some "") = .error .emptyZone := rfl

theorem processField_keeps {fs : FState} {k : String} {v : String} {fs2 : FState}
    (hk : k ≠ "doc_id") (h : processField fs (k, some v) = .ok fs2) :
    fs2.docId = fs.docId ∧ fs2.docIDs = fs.docIDs := by
  simp only [processField] at h
  by_cases hv : v = ""
  · rw [if_pos hv] at h
    exact Except.noConfusion h
  · rw [if_neg hv, if_neg hk] at h
    cases hz : processTokens fs.docId fs.docString fs.index (zoneTokens v) with
    | error e =>
      simp only [hz] at h
      exact Except.noConfusion h
    | ok p =>
      simp only [hz] at h
      cases h
      exact ⟨rfl, rfl⟩

theorem processField_monoIDs {fs : FState} {kv : String × Option String} {fs2 : FState}
    (h : processField fs kv = .ok fs2) : ∀ n ∈ fs.docIDs, n ∈ fs2.docIDs := by
  obtain ⟨k, v⟩ := kv
  cases v with
  | none => exact Except.noConfusion h
  | some v =>
    by_cases hk : k = "doc_id"
    · subst hk
      simp only [processField] at h
      by_cases hv : v = ""
      · rw [if_pos hv] at h
        exact Except.noConfusion h
      · rw [if_neg hv] at h
        simp only [if_true] at h
        cases hp : pyIntParse v.data with
        | none =>
          simp only [hp] at h
          exact Except.noConfusion h
        | some m =>
          simp only [hp] at h
          by_cases hd : m ∈ fs.docIDs
          · rw [if_pos hd] at h
            exact Except.noConfusion h
          · rw [if_neg hd] at h
            cases h
            intro n hn
            exact List.mem_append_left _ hn
    · intro n hn
      rw [(processField_keeps hk h).2]
      exact hn

theorem procFields_monoIDs :
    ∀ (fields : List (String × Option String)) (fs fs2 : FState),
      procFields fs fields = .ok fs2 → ∀ n ∈ fs.docIDs, n ∈ fs2.docIDs := by
  intro fields
  induction fields with
  | nil =>
    intro fs fs2 h
    cases h
    exact fun n hn => hn
  | cons kv rest ih =>
    intro fs fs2 h
    rw [procFields] at h
    cases hf : processField fs kv with
    | error e => rw [hf] at h; exact Except.noConfusion h
    | ok fsm =>
      rw [hf] at h
      exact fun n hn => ih fsm fs2 h n (processField_monoIDs hf n hn)

theorem procFields_badField :
    ∀ (fields : List (String × Option String)) (fs : FState),
      (∃ kv ∈ fields, kv.2 = none ∨ kv.2 = some "") →
      exOk (procFields fs fields) = false := by
  intro fields
  induction fields with
  | nil =>
    intro fs h
    obtain ⟨kv, hm, _⟩ := h
    cases hm
  | cons kv rest ih =>
    intro fs h
    rw [procFields]
    obtain ⟨kv0, hm, hbad⟩ := h
    rcases List.mem_cons.mp hm with rfl | hm2
    · obtain ⟨k, v⟩ := kv0
      rcases hbad with hb | hb
      · simp only at hb
        subst hb
        rw [processField_none]
        rfl
      · simp only at hb
        subst hb
        rw [processField_emptyStr]
        rfl
    · cases hf : processField fs kv with
      | error e => rfl
      | ok fsm => exact ih fsm ⟨kv0, hm2, hbad⟩

theorem procFields_noDocId :
    ∀ (fields : List (String × Option String)) (fs fs2 : FState),
      (∀ kv ∈ fields, kv.1 ≠ "doc_id") → procFields fs fields = .ok fs2 →
      fs2.docId = fs.docId := by
  intro fields
  induction fields with
  | nil =>
    intro fs fs2 _ h
    cases h
    rfl
  | cons kv rest ih =>
    intro fs fs2 hnk h
    rw [procFields] at h
    cases hf : processField fs kv with
    | error e => rw [hf] at h; exact Except.noConfusion h
    | ok fsm =>
      rw [hf] at h
      obtain ⟨k, v⟩ := kv
      have hk : k ≠ "doc_id" := hnk (k, v) (List.mem_cons_self _ _)
      cases v with
      | none => exact Except.noConfusion hf
      | some v =>
        rw [ih fsm fs2 (fun q hq => hnk q (List.mem_cons_of_mem _ hq)) h]
        exact (processField_keeps hk hf).1

theorem procFields_records :
    ∀ (fields : List (String × Option String)) (fs fs2 : FState) {n : Int},
      docIdOf fields = some n → procFields fs fields = .ok fs2 → n ∈ fs2.docIDs := by
  intro fields
  induction fields with
  | nil => intro fs fs2 n hid _; exact Option.noConfusion hid
  | cons kv rest ih =>
    intro fs fs2 n hid h
    obtain ⟨k, v⟩ := kv
    rw [procFields] at h
    by_cases hk : k = "doc_id"
    · subst hk
      simp only [docIdOf, if_true] at hid
      cases v with
      | none => simp at hid
      | some s =>
        simp only [Option.some_bind] at hid
        cases hf : processField fs ("doc_id", some s) with
        | error e => rw [hf] at h; exact Except.noConfusion h
        | ok fsm =>
          rw [hf] at h
          have hin : n ∈ fsm.docIDs := by
            simp only [processField] at hf
            by_cases hv : s = ""
            · rw [if_pos hv] at hf
              exact Except.noConfusion hf
            · rw [if_neg hv] at hf
              simp only [if_true, hid] at hf
              by_cases hd : n ∈ fs.docIDs
              · rw [if_pos hd] at hf
                exact Except.noConfusion hf
              · rw [if_neg hd] at hf
                cases hf
                exact List.mem_append_right _ (List.mem_singleton.mpr rfl)
          exact procFields_monoIDs rest fsm fs2 h n hin
    · simp only [docIdOf, if_neg hk] at hid
      cases hf : processField fs (k, v) with
      | error e => rw [hf] at h; exact Except.noConfusion h
      | ok fsm =>
        rw [hf] at h
        exact ih fsm fs2 hid h

theorem procFields_dup :
    ∀ (fields : List (String × Option String)) (fs : FState) {n : Int},
      docIdOf fields = some n → n ∈ fs.docIDs →
      exOk (procFields fs fields) = false := by
  intro fields
  induction fields with
  | nil => intro fs n hid _; exact Option.noConfusion hid
  | cons kv rest ih =>
    intro fs n hid hmem
    obtain ⟨k, v⟩ := kv
    rw [procFields]
    by_cases hk : k = "doc_id"
    · subst hk
      simp only [docIdOf, if_true] at hid
      cases v with
      | none => simp at hid
      | some s =>
        simp only [Option.some_bind] at hid
        cases hf : processField fs ("doc_id", some s) with
        | error e => rfl
        | ok fsm =>
          exfalso
          simp only [processField] at hf
          by_cases hv : s = ""
          · rw [if_pos hv] at hf
            exact Except.noConfusion hf
          · rw [if_neg hv] at hf
            simp only [if_true, hid] at hf
            rw [if_pos hmem] at hf
            exact Except.noConfusion hf
    · simp only [docIdOf, if_neg hk] at hid
      cases hf : processField fs (k, v) with
      | error e => rfl
      | ok fsm => exact ih fsm hid (processField_monoIDs hf n hmem)

theorem processDoc_short {doc : List (String × Option String)} (h : doc.length ≤ 1)
    (s : BState) : exOk (processDoc s doc) = false := by
  simp only [processDoc, if_pos h]
  rfl

theorem processDoc_badField {doc : List (String × Option String)}
    (h : ∃ kv ∈ doc, kv.2 = none ∨ kv.2 = some "") (s : BState) :
    exOk (processDoc s doc) = false := by
  by_cases hlen : doc.length ≤ 1
  · exact processDoc_short hlen s
  · simp only [processDoc, if_neg hlen]
    cases hpf : procFields ⟨none, "", s.docIDs, s.index⟩ doc with
    | error e => rfl
    | ok fsm =>
      have := procFields_badField doc ⟨none, "", s.docIDs, s.index⟩ h
      rw [hpf] at this
      exact absurd this (by simp [exOk])

theorem processDoc_missingId {doc : List (String × Option String)}
    (h : ∀ kv ∈ doc, kv.1 ≠ "doc_id") (s : BState) :
    exOk (processDoc s doc) = false := by
  by_cases hlen : doc.length ≤ 1
  · exact processDoc_short hlen s
  · simp only [processDoc, if_neg hlen]
    cases hpf : procFields ⟨none, "", s.docIDs, s.index⟩ doc with
    | error e => rfl
    | ok fsm =>
      have hdocid : fsm.docId = none := procFields_noDocId doc _ fsm h hpf
      simp only [hdocid]
      rfl

theorem processDoc_records {doc : List (String × Option String)} {s s2 : BState} {n : Int}
    (hid : docIdOf doc = some n) (h : processDoc s doc = .ok s2) : n ∈ s2.docIDs := by
  simp only [processDoc] at h
  by_cases hlen : doc.length ≤ 1
  · rw [if_pos hlen] at h
    exact Except.noConfusion h
  · rw [if_neg hlen] at h
    cases hpf : procFields ⟨none, "", s.docIDs, s.index⟩ doc with
    | error e => rw [hpf] at h; exact Except.noConfusion h
    | ok fsm =>
      rw [hpf] at h
      cases hd : fsm.docId with
      | none =>
        simp only [hd] at h
        exact Except.noConfusion h
      | some id =>
        simp only [hd] at h
        cases h
        exact procFields_records doc _ fsm hid hpf

theorem processDoc_monoIDs {doc : List (String × Option String)} {s s2 : BState}
    (h : processDoc s doc = .ok s2) : ∀ n ∈ s.docIDs, n ∈ s2.docIDs := by
  simp only [processDoc] at h
  by_cases hlen : doc.length ≤ 1
  · rw [if_pos hlen] at h
    exact Except.noConfusion h
  · rw [if_neg hlen] at h
    cases hpf : procFields ⟨none, "", s.docIDs, s.index⟩ doc with
    | error e => rw [hpf] at h; exact Except.noConfusion h
    | ok fsm =>
      rw [hpf] at h
      cases hd : fsm.docId with
      | none =>
        simp only [hd] at h
        exact Except.noConfusion h
      | some id =>
        simp only [hd] at h
        cases h
        exact procFields_monoIDs doc _ fsm hpf

theorem processDoc_dup {doc : List (String × Option String)} {s : BState} {n : Int}
    (hid : docIdOf doc = some n) (hmem : n ∈ s.docIDs) :
    exOk (processDoc s doc) = false := by
  by_cases hlen : doc.length ≤ 1
  · exact processDoc_short hlen s
  · simp only [processDoc, if_neg hlen]
    cases hpf : procFields ⟨none, "", s.docIDs, s.index⟩ doc with
    | error e => rfl
    | ok fsm =>
      have := procFields_dup doc ⟨none, "", s.docIDs, s.index⟩ hid hmem
      rw [hpf] at this
      exact absurd this (by simp [exOk])

theorem runDocs_append (xs ys : List (List (String × Option String))) :
    ∀ s, runDocs s (xs ++ ys) =
      match runDocs s xs with
      | .error e => .error e
      | .ok s2 => runDocs s2 ys := by
  induction xs with
  | nil => intro s; rfl
  | cons d ds ih =>
    intro s
    rw [List.cons_append, runDocs, runDocs]
    cases processDoc s d with
    | error e => rfl
    | ok s2 => exact ih s2

theorem runDocs_monoIDs :
    ∀ (ds : List (List (String × Option String))) (s s2 : BState),
      runDocs s ds = .ok s2 → ∀ n ∈ s.docIDs, n ∈ s2.docIDs := by
  intro ds
  induction ds with
  | nil =>
    intro s s2 h
    cases h
    exact fun n hn => hn
  | cons d rest ih =>
    intro s s2 h
    rw [runDocs] at h
    cases hp : processDoc s d with
    | error e => rw [hp] at h; exact Except.noConfusion h
    | ok sm =>
      rw [hp] at h
      exact fun n hn => ih sm s2 h n (processDoc_monoIDs hp n hn)

theorem runDocs_failCons {d : List (String × Option String)}
    {ds : List (List (String × Option String))} {s : BState}
    (h : exOk (processDoc s d) = false) : exOk (runDocs s (d :: ds)) = false := by
  rw [runDocs]
  cases hp : processDoc s d with
  | error e => rfl
  | ok sm =>
    rw [hp] at h
    exact absurd h (by simp [exOk])

theorem runDocs_failAfter {rest : List (List (String × Option String))}
    (pre : List (List (String × Option String)))
    (h : ∀ s, exOk (runDocs s rest) = false) (s : BState) :
    exOk (runDocs s (pre ++ rest)) = false := by
  rw [runDocs_append]
  cases hr : runDocs s pre with
  | error e => rfl
  | ok s2 => exact h s2

theorem generateIndex_err {corpus : List (List (String × Option String))}
    (h : exOk (runDocs ⟨[], [], []⟩ corpus) = false) :
    exOk (generateIndex corpus) = false ∧ exOk (buildIndexFiles corpus) = false := by
  cases hr : runDocs ⟨[], [], []⟩ corpus with
  | error e =>
    have hg : generateIndex corpus = .error e := by
      simp only [generateIndex, hr]
    constructor
    · rw [hg]; rfl
    · simp only [buildIndexFiles, hg]
      rfl
  | ok s2 =>
    rw [hr] at h
    exact absurd h (by simp [exOk])

/-- Claim C8: any corpus exhibiting a validation violation — a document
with fewer than two fields, a null or empty zone content, a missing
doc_id field, or a duplicate document identifier — makes the build abort
with an error, and since the index files are produced only from a
successful generateIndex, no output file content is ever produced. -/
theorem claim_C8_validation (corpus : List (List (String × Option String)))
    (h : hasViolation corpus) :
    exOk (generateIndex corpus) = false ∧ exOk (buildIndexFiles corpus) = false := by
  apply generateIndex_err
  rcases h with ⟨d, hd, hlen⟩ | ⟨d, hd, hbad⟩ | ⟨d, hd, hmiss⟩ |
    ⟨pre, d1, mid, d2, post, n, hsplit, hid1, hid2⟩
  · obtain ⟨pre, post, rfl⟩ := List.append_of_mem hd
    exact runDocs_failAfter pre
      (fun s => runDocs_failCons (processDoc_short hlen s)) _
  · obtain ⟨pre, post, rfl⟩ := List.append_of_mem hd
    exact runDocs_failAfter pre
      (fun s => runDocs_failCons (processDoc_badField hbad s)) _
  · obtain ⟨pre, post, rfl⟩ := List.append_of_mem hd
    exact runDocs_failAfter pre
      (fun s => runDocs_failCons (processDoc_missingId hmiss s)) _
  · subst hsplit
    refine runDocs_failAfter pre ?_ _
    intro s
    rw [runDocs]
    cases hp1 : processDoc s d1 with
    | error e => rfl
    | ok s2 =>
      have hn2 : n ∈ s2.docIDs := processDoc_records hid1 hp1
      show exOk (runDocs s2 (mid ++ d2 :: post)) = false
      rw [runDocs_append]
      cases hr : runDocs s2 mid with
      | error e => rfl
      | ok s3 =>
        have hn3 : n ∈ s3.docIDs := runDocs_monoIDs mid s2 s3 hr n hn2
        exact runDocs_failCons (processDoc_dup hid2 hn3)

theorem claim_C8_wit :
    hasViolation [[("doc_id", some "7"), ("z", some "a")],
        [("doc_id", some "7"), ("z", some "b")]] ∧
      (exOk (generateIndex [[("doc_id", some "7"), ("z", some "a")],
          [("doc_id", some "7"), ("z", some "b")]]) = false ∧
       exOk (buildIndexFiles [[("doc_id", some "7"), ("z", some "a")],
          [("doc_id", some "7"), ("z", some "b")]]) = false) :=
  ⟨Or.inr (Or.inr (Or.inr ⟨[], [("doc_id", some "7"), ("z", some "a")], [],
      [("doc_id", some "7"), ("z", some "b")], [], 7, rfl, rfl, rfl⟩)),
    claim_C8_validation _
      (Or.inr (Or.inr (Or.inr ⟨[], [("doc_id", some "7"), ("z", some "a")], [],
        [("doc_id", some "7"), ("z", some "b")], [], 7, rfl, rfl, rfl⟩)))⟩

/- Index invariants (claims C3, C1, C10). -/

/-- Strict order on postings as Python compares them: only two integers
compare (None never survives a comparison). -/
def optLtB (a b : Option Int) : Bool :=
  match a, b with
  | some x, some y => x < y
  | _, _ => false

/-- The postings-entry invariant: DF counts the postings, the list is
non-empty and strictly ascending (hence duplicate-free). -/
def entryOK (e : BEntry) : Prop :=
  e.DF = e.postings.length ∧ e.postings ≠ [] ∧
  e.postings.Pairwise (fun a b => optLtB a b = true)

/-- A well-formed index key: non-empty, lowercase word characters. -/
def tokOK (t : String) : Prop := t ≠ "" ∧ ∀ c ∈ t.data, isTokenChar c = true

/-- A well-formed stored docString: word characters and spaces. -/
def dsOK (s : String) : Prop := ∀ c ∈ s.data, isTokenChar c = true ∨ c = ' '

/-- The inverted-index invariant: distinct keys, every key a well-formed
token, every entry satisfying the postings invariant. -/
def indexOK (idx : List (String × BEntry)) : Prop :=
  (idx.map Prod.fst).Nodup ∧ ∀ p ∈ idx, tokOK p.1 ∧ entryOK p.2

/-- The forward-index invariant: distinct ids and well-formed docStrings. -/
def docIndexOK (d : List (Int × String)) : Prop :=
  (d.map Prod.fst).Nodup ∧ ∀ p ∈ d, dsOK p.2

theorem insertAsc_pairwise {x : Int} {l : List Int} (h : l.Pairwise (· ≤ ·)) :
    (insertAsc x l).Pairwise (· ≤ ·) := by
  induction l with
  | nil => simp [insertAsc]
  | cons y ys ih =>
    rw [insertAsc]
    split
    · rename_i hxy
      refine List.Pairwise.cons ?_ h
      intro b hb
      rcases List.mem_cons.mp hb with rfl | hb2
      · exact hxy
      · exact le_trans hxy (List.rel_of_pairwise_cons h hb2)
    · rename_i hxy
      have hyx : y ≤ x := le_of_lt (lt_of_not_le hxy)
      refine List.Pairwise.cons ?_ (ih h.of_cons)
      intro b hb
      have hb2 := (insertAsc_perm x ys).mem_iff.mp hb
      rcases List.mem_cons.mp hb2 with rfl | hb3
      · exact hyx
      · exact List.rel_of_pairwise_cons h hb3

theorem sortAsc_pairwise (l : List Int) : (sortAsc l).Pairwise (· ≤ ·) := by
  induction l with
  | nil => exact List.Pairwise.nil
  | cons x xs ih => exact insertAsc_pairwise ih

theorem pairwise_lt_of_le_nodup {l : List Int} (hle : l.Pairwise (· ≤ ·))
    (hnd : l.Nodup) : l.Pairwise (· < ·) :=
  (hle.and hnd).imp (fun h => lt_of_le_of_ne h.1 h.2)

theorem allSome_eq {l : List (Option Int)} (h : ∀ o ∈ l, o ≠ none) :
    l = (l.filterMap id).map some := by
  induction l with
  | nil => rfl
  | cons o rest ih =>
    cases o with
    | none => exact absurd rfl (h none (List.mem_cons_self _ _))
    | some x =>
      rw [List.filterMap_cons]
      simp only [id]
      rw [List.map_cons]
      rw [← ih (fun o ho => h o (List.mem_cons_of_mem _ ho))]

theorem pairwise_optLtB_somes {xs : List Int} :
    (xs.map some).Pairwise (fun a b => optLtB a b = true) ↔ xs.Pairwise (· < ·) := by
  rw [List.pairwise_map]
  constructor
  · refine fun h => h.imp ?_
    intro a b hab
    simpa [optLtB] using hab
  · refine fun h => h.imp ?_
    intro a b hab
    simpa [optLtB] using hab

/-- Appending an absent docId and re-sorting preserves the entry shape:
one element longer, still non-empty, still strictly ascending.  (When the
combined list mixes None with an integer the sort raises instead.) -/
theorem sortPostings_update {post : List (Option Int)} {d : Option Int}
    {out : List (Option Int)}
    (hpw : post.Pairwise (fun a b => optLtB a b = true)) (hd : d ∉ post)
    (h : sortPostings (post ++ [d]) = .ok out) :
    out.length = post.length + 1 ∧ out ≠ [] ∧
      out.Pairwise (fun a b => optLtB a b = true) := by
  unfold sortPostings at h
  by_cases hlen : (post ++ [d]).length ≤ 1
  · rw [if_pos hlen] at h
    cases h
    have hpost : post = [] := by
      rw [List.length_append, List.length_singleton] at hlen
      exact List.length_eq_zero.mp (by omega)
    subst hpost
    exact ⟨rfl, by simp, by simp⟩
  · rw [if_neg hlen] at h
    by_cases hnone : none ∈ post ++ [d]
    · rw [if_pos hnone] at h
      exact Except.noConfusion h
    · rw [if_neg hnone] at h
      cases h
      have hsome : ∀ o ∈ post ++ [d], o ≠ none := fun o ho he => hnone (he ▸ ho)
      obtain ⟨m, rfl⟩ : ∃ m, d = some m := by
        cases d with
        | none =>
          exact absurd rfl (hsome none (List.mem_append_right _ (List.mem_singleton.mpr rfl)))
        | some m => exact ⟨m, rfl⟩
      have hpostsome : ∀ o ∈ post, o ≠ none :=
        fun o ho => hsome o (List.mem_append_left _ ho)
      have hpost_eq : post = (post.filterMap id).map some := allSome_eq hpostsome
      have hxs_lt : (post.filterMap id).Pairwise (· < ·) :=
        pairwise_optLtB_somes.mp (hpost_eq ▸ hpw)
      have hxs_nd : (post.filterMap id).Nodup := hxs_lt.imp ne_of_lt
      have hm_notin : m ∉ post.filterMap id := by
        intro hmem
        apply hd
        rw [hpost_eq]
        exact List.mem_map.mpr ⟨m, hmem, rfl⟩
      have hints : (post ++ [some m]).filterMap id = post.filterMap id ++ [m] := by
        rw [List.filterMap_append]
        rfl
    -- the sorted list is a permutation of the combined integers
      have hperm := sortAsc_perm ((post ++ [some m]).filterMap id)
      have hnd2 : ((post ++ [some m]).filterMap id).Nodup := by
        rw [hints]
        rw [List.nodup_append]
        exact ⟨hxs_nd, List.nodup_singleton m, by simpa using hm_notin⟩
      have hsorted_nd : (sortAsc ((post ++ [some m]).filterMap id)).Nodup :=
        hperm.nodup_iff.mpr hnd2
      have hsorted_lt : (sortAsc ((post ++ [some m]).filterMap id)).Pairwise (· < ·) :=
        pairwise_lt_of_le_nodup (sortAsc_pairwise _) hsorted_nd
      refine ⟨?_, ?_, ?_⟩
      · rw [List.length_map, hperm.length_eq, hints, List.length_append,
          List.length_singleton]
        have : post.length = (post.filterMap id).length := by
          conv_lhs => rw [hpost_eq]
          rw [List.length_map]
        omega
      · intro hempty
        have := congrArg List.length hempty
        rw [List.length_map, hperm.length_eq, hints, List.length_append] at this
        simp at this
      · exact pairwise_optLtB_somes.mpr hsorted_lt

theorem updateEntry_entryOK {tok : String} {d : Option Int} :
    ∀ {idx idx2 : List (String × BEntry)}, updateEntry tok d idx = .ok idx2 →
      (∀ q ∈ idx, entryOK q.2) → ∀ q ∈ idx2, entryOK q.2 := by
  intro idx
  induction idx with
  | nil =>
    intro idx2 h hOK q hq
    cases h
    rcases List.mem_singleton.mp hq with rfl
    exact ⟨rfl, by simp, by simp⟩
  | cons p rest ih =>
    intro idx2 h hOK q hq
    obtain ⟨k, e⟩ := p
    rw [updateEntry] at h
    by_cases hk : k = tok
    · rw [if_pos hk] at h
      by_cases hdm : d ∈ e.postings
      · rw [if_pos hdm] at h
        cases h
        exact hOK q hq
      · rw [if_neg hdm] at h
        cases hs : sortPostings (e.postings ++ [d]) with
        | error err => rw [hs] at h; exact Except.noConfusion h
        | ok sorted =>
          rw [hs] at h
          cases h
          rcases List.mem_cons.mp hq with rfl | hq2
          · have he := hOK (k, e) (List.mem_cons_self _ _)
            obtain ⟨hlen, hne, hpw⟩ :=
              sortPostings_update he.2.2 hdm hs
            exact ⟨by rw [show (⟨e.DF + 1, sorted⟩ : BEntry).postings = sorted from rfl, hlen, he.1], hne, hpw⟩
          · exact hOK q (List.mem_cons_of_mem _ hq2)
    · rw [if_neg hk] at h
      cases hr : updateEntry tok d rest with
      | error err => rw [hr] at h; exact Except.noConfusion h
      | ok rest2 =>
        rw [hr] at h
        cases h
        rcases List.mem_cons.mp hq with rfl | hq2
        · exact hOK (k, e) (List.mem_cons_self _ _)
        · exact ih hr (fun r hr2 => hOK r (List.mem_cons_of_mem _ hr2)) q hq2

theorem updateEntry_keys {tok : String} {d : Option Int} :
    ∀ {idx idx2 : List (String × BEntry)}, updateEntry tok d idx = .ok idx2 →
      idx2.map Prod.fst = idx.map Prod.fst ∨
        (idx2.map Prod.fst = idx.map Prod.fst ++ [tok] ∧ tok ∉ idx.map Prod.fst) := by
  intro idx
  induction idx with
  | nil =>
    intro idx2 h
    cases h
    exact Or.inr ⟨rfl, by simp⟩
  | cons p rest ih =>
    intro idx2 h
    obtain ⟨k, e⟩ := p
    rw [updateEntry] at h
    by_cases hk : k = tok
    · rw [if_pos hk] at h
      by_cases hdm : d ∈ e.postings
      · rw [if_pos hdm] at h
        cases h
        exact Or.inl rfl
      · rw [if_neg hdm] at h
        cases hs : sortPostings (e.postings ++ [d]) with
        | error err => rw [hs] at h; exact Except.noConfusion h
        | ok sorted =>
          rw [hs] at h
          cases h
          exact Or.inl rfl
    · rw [if_neg hk] at h
      cases hr : updateEntry tok d rest with
      | error err => rw [hr] at h; exact Except.noConfusion h
      | ok rest2 =>
        rw [hr] at h
        cases h
        rcases ih hr with h2 | ⟨h2, h3⟩
        · exact Or.inl (by rw [List.map_cons, List.map_cons, h2])
        · refine Or.inr ⟨by rw [List.map_cons, List.map_cons, h2]; rfl, ?_⟩
          intro hmem
          rcases List.mem_cons.mp hmem with h4 | h4
          · exact hk h4.symm
          · exact h3 h4

theorem updateEntry_tokOK {tok : String} {d : Option Int} (htok : tokOK tok) :
    ∀ {idx idx2 : List (String × BEntry)}, updateEntry tok d idx = .ok idx2 →
      (∀ q ∈ idx, tokOK q.1) → ∀ q ∈ idx2, tokOK q.1 := by
  intro idx
  induction idx with
  | nil =>
    intro idx2 h hOK q hq
    cases h
    rcases List.mem_singleton.mp hq with rfl
    exact htok
  | cons p rest ih =>
    intro idx2 h hOK q hq
    obtain ⟨k, e⟩ := p
    rw [updateEntry] at h
    by_cases hk : k = tok
    · rw [if_pos hk] at h
      by_cases hdm : d ∈ e.postings
      · rw [if_pos hdm] at h
        cases h
        exact hOK q hq
      · rw [if_neg hdm] at h
        cases hs : sortPostings (e.postings ++ [d]) with
        | error err => rw [hs] at h; exact Except.noConfusion h
        | ok sorted =>
          rw [hs] at h
          cases h
          rcases List.mem_cons.mp hq with rfl | hq2
          · exact hOK (k, e) (List.mem_cons_self _ _)
          · exact hOK q (List.mem_cons_of_mem _ hq2)
    · rw [if_neg hk] at h
      cases hr : updateEntry tok d rest with
      | error err => rw [hr] at h; exact Except.noConfusion h
      | ok rest2 =>
        rw [hr] at h
        cases h
        rcases List.mem_cons.mp hq with rfl | hq2
        · exact hOK (k, e) (List.mem_cons_self _ _)
        · exact ih hr (fun r hr2 => hOK r (List.mem_cons_of_mem _ hr2)) q hq2

theorem updateEntry_indexOK {tok : String} {d : Option Int}
    {idx idx2 : List (String × BEntry)} (h : updateEntry tok d idx = .ok idx2)
    (htok : tokOK tok) (hOK : indexOK idx) : indexOK idx2 := by
  refine ⟨?_, fun q hq => ⟨updateEntry_tokOK htok h (fun r hr => (hOK.2 r hr).1) q hq,
    updateEntry_entryOK h (fun r hr => (hOK.2 r hr).2) q hq⟩⟩
  rcases updateEntry_keys h with h2 | ⟨h2, h3⟩
  · rw [h2]; exact hOK.1
  · rw [h2]
    rw [List.nodup_append]
    exact ⟨hOK.1, List.nodup_singleton tok, by simpa using h3⟩

theorem normalizeToken_chars {raw : String}
    (hra : ∀ c ∈ raw.data, isWsC c = false) :
    ∀ c ∈ (normalizeToken raw).data, isTokenChar c = true := by
  intro c hc
  unfold normalizeToken at hc
  simp only [List.mem_map] at hc
  obtain ⟨c0, hc0, rfl⟩ := hc
  have hc0m := List.mem_filter.mp hc0
  have hword : isWordChar c0 = true := by
    rcases Bool.or_eq_true _ _ |>.mp hc0m.2 with h | h
    · exact h
    · rw [hra c0 hc0m.1] at h
      cases h
  exact tokenChar_pyToLower hword

theorem processTokens_inv :
    ∀ (raws : List String) {docId : Option Int} {ds : String}
      {idx : List (String × BEntry)} {ds2 : String} {idx2 : List (String × BEntry)},
      (∀ r ∈ raws, ∀ c ∈ (r : String).data, isWsC c = false) →
      processTokens docId ds idx raws = .ok (ds2, idx2) →
      indexOK idx → dsOK ds → indexOK idx2 ∧ dsOK ds2 := by
  intro raws
  induction raws with
  | nil =>
    intro docId ds idx ds2 idx2 _ h hOK hds
    cases h
    exact ⟨hOK, hds⟩
  | cons raw rest ih =>
    intro docId ds idx ds2 idx2 hws h hOK hds
    rw [processTokens] at h
    by_cases hne : normalizeToken raw = ""
    · rw [if_pos hne] at h
      exact ih (fun r hr => hws r (List.mem_cons_of_mem _ hr)) h hOK hds
    · rw [if_neg hne] at h
      cases hu : updateEntry (normalizeToken raw) docId idx with
      | error err => rw [hu] at h; exact Except.noConfusion h
      | ok idxm =>
        rw [hu] at h
        have htok : tokOK (normalizeToken raw) :=
          ⟨hne, normalizeToken_chars (hws raw (List.mem_cons_self _ _))⟩
        have hds2 : dsOK (ds ++ normalizeToken raw ++ " ") := by
          intro c hc
          rw [String.data_append, String.data_append] at hc
          rcases List.mem_append.mp hc with hc2 | hc2
          · rcases List.mem_append.mp hc2 with hc3 | hc3
            · exact hds c hc3
            · exact Or.inl (htok.2 c hc3)
          · rcases List.mem_singleton.mp hc2 with rfl
            exact Or.inr rfl
        exact ih (fun r hr => hws r (List.mem_cons_of_mem _ hr)) h
          (updateEntry_indexOK hu htok hOK) hds2

/-- Invariant of the per-document field state. -/
def fsOK (fs : FState) : Prop := indexOK fs.index ∧ dsOK fs.docString

theorem processField_fsOK {fs : FState} {kv : String × Option String} {fs2 : FState}
    (h : processField fs kv = .ok fs2) (hOK : fsOK fs) : fsOK fs2 := by
  obtain ⟨k, v⟩ := kv
  cases v with
  | none => exact Except.noConfusion h
  | some v =>
    simp only [processField] at h
    by_cases hv : v = ""
    · rw [if_pos hv] at h
      exact Except.noConfusion h
    · rw [if_neg hv] at h
      by_cases hk : k = "doc_id"
      · rw [if_pos hk] at h
        cases hp : pyIntParse v.data with
        | none =>
          simp only [hp] at h
          exact Except.noConfusion h
        | some m =>
          simp only [hp] at h
          by_cases hd : m ∈ fs.docIDs
          · rw [if_pos hd] at h
            exact Except.noConfusion h
          · rw [if_neg hd] at h
            cases h
            exact hOK
      · rw [if_neg hk] at h
        cases hz : processTokens fs.docId fs.docString fs.index (zoneTokens v) with
        | error err =>
          simp only [hz] at h
          exact Except.noConfusion h
        | ok p =>
          obtain ⟨ds2, idx2⟩ := p
          simp only [hz] at h
          cases h
          have := processTokens_inv (zoneTokens v)
            (fun r hr => (zoneTokens_mem hr).2) hz hOK.1 hOK.2
          exact ⟨this.1, this.2⟩

theorem procFields_fsOK :
    ∀ (fields : List (String × Option String)) {fs fs2 : FState},
      procFields fs fields = .ok fs2 → fsOK fs → fsOK fs2 := by
  intro fields
  induction fields with
  | nil =>
    intro fs fs2 h hOK
    cases h
    exact hOK
  | cons kv rest ih =>
    intro fs fs2 h hOK
    rw [procFields] at h
    cases hf : processField fs kv with
    | error err => rw [hf] at h; exact Except.noConfusion h
    | ok fsm =>
      rw [hf] at h
      exact ih h (processField_fsOK hf hOK)

theorem processField_docid_ok {fs : FState} {v : Option String} {fs2 : FState}
    (h : processField fs ("doc_id", v) = .ok fs2) :
    ∃ n s, v = some s ∧ pyIntParse s.data = some n ∧ n ∉ fs.docIDs ∧
      fs2 = ⟨some n, fs.docString, fs.docIDs ++ [n], fs.index⟩ := by
  cases v with
  | none => exact Except.noConfusion h
  | some s =>
    simp only [processField] at h
    by_cases hv : s = ""
    · rw [if_pos hv] at h
      exact Except.noConfusion h
    · rw [if_neg hv] at h
      simp only [if_true] at h
      cases hp : pyIntParse s.data with
      | none =>
        simp only [hp] at h
        exact Except.noConfusion h
      | some n =>
        simp only [hp] at h
        by_cases hd : n ∈ fs.docIDs
        · rw [if_pos hd] at h
          exact Except.noConfusion h
        · rw [if_neg hd] at h
          cases h
          exact ⟨n, s, rfl, hp, hd, rfl⟩

/-- When the zone loop ends with a docId set, that id has been recorded
in docIDs, and (unless it was already set on entry) it was fresh with
respect to the docIDs the loop started from. -/
theorem procFields_newId :
    ∀ (fields : List (String × Option String)) {fs fs2 : FState},
      procFields fs fields = .ok fs2 →
      (∀ i : Int, fs.docId = some i → i ∈ fs.docIDs) →
      (∀ i : Int, fs2.docId = some i → i ∈ fs2.docIDs) ∧
        (∀ i : Int, fs2.docId = some i → fs.docId = some i ∨ i ∉ fs.docIDs) := by
  intro fields
  induction fields with
  | nil =>
    intro fs fs2 h hinv
    cases h
    exact ⟨hinv, fun i hi => Or.inl hi⟩
  | cons kv rest ih =>
    intro fs fs2 h hinv
    rw [procFields] at h
    cases hf : processField fs kv with
    | error err => rw [hf] at h; exact Except.noConfusion h
    | ok fsm =>
      rw [hf] at h
      obtain ⟨k, v⟩ := kv
      by_cases hk : k = "doc_id"
      · subst hk
        obtain ⟨n, sv, rfl, hp, hfresh, rfl⟩ := processField_docid_ok hf
        have hinvm : ∀ i : Int, some n = some i → i ∈ fs.docIDs ++ [n] := by
          intro i hi
          cases hi
          exact List.mem_append_right _ (List.mem_singleton.mpr rfl)
        obtain ⟨h1, h2⟩ := ih h hinvm
        refine ⟨h1, ?_⟩
        intro i hi
        rcases h2 i hi with h3 | h3
        · cases h3
          exact Or.inr hfresh
        · exact Or.inr (fun hmem => h3 (List.mem_append_left _ hmem))
      · cases v with
        | none => exact Except.noConfusion hf
        | some v0 =>
          obtain ⟨hkeep1, hkeep2⟩ := processField_keeps hk hf
          have hinvm : ∀ i : Int, fsm.docId = some i → i ∈ fsm.docIDs := by
            intro i hi
            rw [hkeep1] at hi
            rw [hkeep2]
            exact hinv i hi
          obtain ⟨h1, h2⟩ := ih h hinvm
          refine ⟨h1, ?_⟩
          intro i hi
          rcases h2 i hi with h3 | h3
          · rw [hkeep1] at h3
            exact Or.inl h3
          · rw [hkeep2] at h3
            exact Or.inr h3

/-- The build-state invariant: both structures well-formed and every
recorded document id present in docIDs. -/
def bOK (s : BState) : Prop :=
  indexOK s.index ∧ docIndexOK s.docIndex ∧
    ∀ i ∈ s.docIndex.map Prod.fst, i ∈ s.docIDs

theorem processDoc_bOK {s s2 : BState} {doc : List (String × Option String)}
    (h : processDoc s doc = .ok s2) (hOK : bOK s) : bOK s2 := by
  simp only [processDoc] at h
  by_cases hlen : doc.length ≤ 1
  · rw [if_pos hlen] at h
    exact Except.noConfusion h
  · rw [if_neg hlen] at h
    cases hpf : procFields ⟨none, "", s.docIDs, s.index⟩ doc with
    | error err => rw [hpf] at h; exact Except.noConfusion h
    | ok fsm =>
      rw [hpf] at h
      cases hd : fsm.docId with
      | none =>
        simp only [hd] at h
        exact Except.noConfusion h
      | some id =>
        simp only [hd] at h
        cases h
        have hfs : fsOK fsm := procFields_fsOK doc hpf ⟨hOK.1, by intro c hc; cases hc⟩
        obtain ⟨hrec, hnew⟩ := procFields_newId doc hpf
          (by intro i hi; exact Option.noConfusion hi)
        have hidIn : id ∈ fsm.docIDs := hrec id hd
        have hidFresh : id ∉ s.docIDs := by
          rcases hnew id hd with h3 | h3
          · exact Option.noConfusion h3
          · exact h3
        have hkeysub : ∀ i ∈ s.docIndex.map Prod.fst, i ∈ fsm.docIDs := by
          intro i hi
          exact procFields_monoIDs doc _ fsm hpf i (hOK.2.2 i hi)
        have hidNotKey : id ∉ s.docIndex.map Prod.fst :=
          fun hmem => hidFresh (hOK.2.2 id hmem)
        rw [pyDictSet_fresh hidNotKey]
        refine ⟨hfs.1, ⟨?_, ?_⟩, ?_⟩
        · rw [List.map_append]
          rw [List.nodup_append]
          exact ⟨(hOK.2.1).1, by simp, by simpa using hidNotKey⟩
        · intro p hp
          rcases List.mem_append.mp hp with h3 | h3
          · exact (hOK.2.1).2 p h3
          · rcases List.mem_singleton.mp h3 with rfl
            exact hfs.2
        · intro i hi
          rw [List.map_append] at hi
          rcases List.mem_append.mp hi with h3 | h3
          · exact hkeysub i h3
          · simp only [List.map_cons, List.map_nil, List.mem_singleton] at h3
            subst h3
            exact hidIn

theorem runDocs_bOK :
    ∀ (ds : List (List (String × Option String))) {s s2 : BState},
      runDocs s ds = .ok s2 → bOK s → bOK s2 := by
  intro ds
  induction ds with
  | nil =>
    intro s s2 h hOK
    cases h
    exact hOK
  | cons d rest ih =>
    intro s s2 h hOK
    rw [runDocs] at h
    cases hp : processDoc s d with
    | error err => rw [hp] at h; exact Except.noConfusion h
    | ok sm =>
      rw [hp] at h
      exact ih h (processDoc_bOK hp hOK)

theorem insertAscEntry_perm (p : String × BEntry) (l : List (String × BEntry)) :
    List.Perm (insertAscEntry p l) (p :: l) := by
  induction l with
  | nil => exact List.Perm.refl _
  | cons q qs ih =>
    rw [insertAscEntry]
    split
    · exact List.Perm.refl _
    · exact (ih.cons q).trans (List.Perm.swap p q qs)

theorem sortByKeyStr_perm (l : List (String × BEntry)) :
    List.Perm (sortByKeyStr l) l := by
  induction l with
  | nil => exact List.Perm.refl _
  | cons p ps ih => exact (insertAscEntry_perm p (sortByKeyStr ps)).trans (ih.cons p)

theorem insertAscPair_perm (p : Int × String) (l : List (Int × String)) :
    List.Perm (insertAscPair p l) (p :: l) := by
  induction l with
  | nil => exact List.Perm.refl _
  | cons q qs ih =>
    rw [insertAscPair]
    split
    · exact List.Perm.refl _
    · exact (ih.cons q).trans (List.Perm.swap p q qs)

theorem sortByKeyInt_perm (l : List (Int × String)) :
    List.Perm (sortByKeyInt l) l := by
  induction l with
  | nil => exact List.Perm.refl _
  | cons p ps ih => exact (insertAscPair_perm p (sortByKeyInt ps)).trans (ih.cons p)

/-- A successful build satisfies both structure invariants. -/
theorem generateIndex_inv {corpus : List (List (String × Option String))}
    {idx : List (String × BEntry)} {dIdx : List (Int × String)}
    (h : generateIndex corpus = .ok (idx, dIdx)) : indexOK idx ∧ docIndexOK dIdx := by
  simp only [generateIndex] at h
  cases hr : runDocs ⟨[], [], []⟩ corpus with
  | error err => rw [hr] at h; exact Except.noConfusion h
  | ok s =>
    rw [hr] at h
    have hOK : bOK s := runDocs_bOK corpus hr
      ⟨⟨List.nodup_nil, by intro p hp; cases hp⟩,
       ⟨List.nodup_nil, by intro p hp; cases hp⟩,
       by intro i hi; cases hi⟩
    cases h
    constructor
    · refine ⟨?_, ?_⟩
      · exact (((sortByKeyStr_perm s.index).map Prod.fst).nodup_iff).mpr hOK.1.1
      · intro p hp
        exact hOK.1.2 p ((sortByKeyStr_perm s.index).mem_iff.mp hp)
    · refine ⟨?_, ?_⟩
      · exact (((sortByKeyInt_perm s.docIndex).map Prod.fst).nodup_iff).mpr hOK.2.1.1
      · intro p hp
        exact hOK.2.1.2 p ((sortByKeyInt_perm s.docIndex).mem_iff.mp hp)

/-- Claim C3: in the inverted index of a successful build every entry has
documentFrequency equal to the length of its postings list and postings
strictly ascending (hence duplicate-free, Pairwise of a strict order), and
this entry invariant is preserved by every postings-list update performed
during the build (updateEntry). -/
theorem claim_C3_invariant (corpus : List (List (String × Option String)))
    (idx : List (String × BEntry)) (dIdx : List (Int × String))
    (hok : generateIndex corpus = .ok (idx, dIdx)) :
    (∀ p ∈ idx, p.2.DF = p.2.postings.length ∧
      p.2.postings.Pairwise (fun a b => optLtB a b = true)) ∧
    (∀ (tok : String) (d : Option Int) (jdx jdx2 : List (String × BEntry)),
      (∀ q ∈ jdx, entryOK q.2) → updateEntry tok d jdx = .ok jdx2 →
      ∀ q ∈ jdx2, entryOK q.2) := by
  constructor
  · intro p hp
    have h := (generateIndex_inv hok).1.2 p hp
    exact ⟨h.2.1, h.2.2.2⟩
  · intro tok d jdx jdx2 hOK hu
    exact updateEntry_entryOK hu hOK

theorem claim_C3_wit :
    generateIndex [[("doc_id", some "1"), ("t", some "b a a")]] =
      .ok ([("a", ⟨1, [some 1]⟩), ("b", ⟨1, [some 1]⟩)], [(1, "b a a ")]) ∧
    ((∀ p ∈ ([("a", (⟨1, [some 1]⟩ : BEntry)), ("b", ⟨1, [some 1]⟩)] :
        List (String × BEntry)), p.2.DF = p.2.postings.length ∧
      p.2.postings.Pairwise (fun a b => optLtB a b = true)) ∧
    (∀ (tok : String) (d : Option Int) (jdx jdx2 : List (String × BEntry)),
      (∀ q ∈ jdx, entryOK q.2) → updateEntry tok d jdx = .ok jdx2 →
      ∀ q ∈ jdx2, entryOK q.2)) :=
  ⟨rfl, claim_C3_invariant [[("doc_id", some "1"), ("t", some "b a a")]]
    [("a", ⟨1, [some 1]⟩), ("b", ⟨1, [some 1]⟩)] [(1, "b a a ")] rfl⟩

/- Null-posting lemmas (claim C10): tokens of a zone processed before the
doc_id field is reached are recorded against docId None. -/

theorem updateEntry_none {tok : String} :
    ∀ {idx : List (String × BEntry)}, (∀ p ∈ idx, p.2.postings = [none]) →
      ∃ idx2, updateEntry tok none idx = .ok idx2 ∧
        (∀ p ∈ idx2, p.2.postings = [none]) ∧
        (∃ df, (tok, (⟨df, [none]⟩ : BEntry)) ∈ idx2) ∧
        (∀ t : String, (∃ df, (t, (⟨df, [none]⟩ : BEntry)) ∈ idx) →
          ∃ df, (t, (⟨df, [none]⟩ : BEntry)) ∈ idx2) := by
  intro idx
  induction idx with
  | nil =>
    intro _
    refine ⟨[(tok, ⟨1, [none]⟩)], rfl, ?_, ⟨1, List.mem_singleton.mpr rfl⟩, ?_⟩
    · intro p hp
      rcases List.mem_singleton.mp hp with rfl
      rfl
    · intro t ⟨df, hdf⟩
      cases hdf
  | cons p rest ih =>
    intro hall
    obtain ⟨k, e⟩ := p
    by_cases hk : k = tok
    · subst hk
      have he : e.postings = [none] := hall (k, e) (List.mem_cons_self _ _)
      refine ⟨(k, e) :: rest, ?_, hall, ⟨e.DF, ?_⟩, fun t h => h⟩
      · rw [updateEntry, if_pos rfl, if_pos (by rw [he]; exact List.mem_singleton.mpr rfl)]
      · have : e = ⟨e.DF, [none]⟩ := by
          cases e
          simp only at he
          rw [he]
        rw [← this]
        exact List.mem_cons_self _ _
    · obtain ⟨rest2, hr, hall2, hmem2, hkeep2⟩ :=
        ih (fun q hq => hall q (List.mem_cons_of_mem _ hq))
      refine ⟨(k, e) :: rest2, ?_, ?_, ?_, ?_⟩
      · rw [updateEntry, if_neg hk, hr]
      · intro q hq
        rcases List.mem_cons.mp hq with rfl | hq2
        · exact hall (k, e) (List.mem_cons_self _ _)
        · exact hall2 q hq2
      · obtain ⟨df, hdf⟩ := hmem2
        exact ⟨df, List.mem_cons_of_mem _ hdf⟩
      · intro t ⟨df, hdf⟩
        rcases List.mem_cons.mp hdf with heq | hdf2
        · exact ⟨df, heq ▸ List.mem_cons_self _ _⟩
        · obtain ⟨df2, hdf3⟩ := hkeep2 t ⟨df, hdf2⟩
          exact ⟨df2, List.mem_cons_of_mem _ hdf3⟩

theorem processTokens_none :
    ∀ (raws : List String) {ds : String} {idx : List (String × BEntry)},
      (∀ p ∈ idx, p.2.postings = [none]) →
      ∃ ds2 idx2, processTokens none ds idx raws = .ok (ds2, idx2) ∧
        (∀ p ∈ idx2, p.2.postings = [none]) ∧
        (∀ r ∈ raws, normalizeToken r ≠ "" →
          ∃ df, (normalizeToken r, (⟨df, [none]⟩ : BEntry)) ∈ idx2) ∧
        (∀ t : String, (∃ df, (t, (⟨df, [none]⟩ : BEntry)) ∈ idx) →
          ∃ df, (t, (⟨df, [none]⟩ : BEntry)) ∈ idx2) := by
  intro raws
  induction raws with
  | nil =>
    intro ds idx hall
    exact ⟨ds, idx, rfl, hall, (by intro r hr; cases hr), fun t ht => ht⟩
  | cons raw rest ih =>
    intro ds idx hall
    by_cases hne : normalizeToken raw = ""
    · obtain ⟨ds2, idx2, heq, hall2, hmem2, hkeep2⟩ := @ih ds idx hall
      refine ⟨ds2, idx2, ?_, hall2, ?_, hkeep2⟩
      · rw [processTokens, if_pos hne]
        exact heq
      · intro r hr hrne
        rcases List.mem_cons.mp hr with rfl | hr2
        · exact absurd hne hrne
        · exact hmem2 r hr2 hrne
    · obtain ⟨idxm, hu, hallm, hmemm, hkeepm⟩ := @updateEntry_none (normalizeToken raw) idx hall
      obtain ⟨ds2, idx2, heq, hall2, hmem2, hkeep2⟩ :=
        @ih (ds ++ normalizeToken raw ++ " ") idxm hallm
      refine ⟨ds2, idx2, ?_, hall2, ?_, ?_⟩
      · rw [processTokens, if_neg hne, hu]
        exact heq
      · intro r hr hrne
        rcases List.mem_cons.mp hr with rfl | hr2
        · exact hkeep2 _ hmemm
        · exact hmem2 r hr2 hrne
      · intro t ht
        exact hkeep2 t (hkeepm t ht)

theorem updateEntry_keepNone {u : String} {d : Option Int} {t : String} {df : Nat} :
    ∀ {idx idx2 : List (String × BEntry)},
      (t, (⟨df, [none]⟩ : BEntry)) ∈ idx → updateEntry u d idx = .ok idx2 →
      ∃ df2, (t, (⟨df2, [none]⟩ : BEntry)) ∈ idx2 := by
  intro idx
  induction idx with
  | nil => intro idx2 hmem _; cases hmem
  | cons p rest ih =>
    intro idx2 hmem h
    obtain ⟨k, e⟩ := p
    rw [updateEntry] at h
    by_cases hk : k = u
    · rw [if_pos hk] at h
      by_cases hdm : d ∈ e.postings
      · rw [if_pos hdm] at h
        cases h
        exact ⟨df, hmem⟩
      · rw [if_neg hdm] at h
        cases hs : sortPostings (e.postings ++ [d]) with
        | error err => rw [hs] at h; exact Except.noConfusion h
        | ok sorted =>
          rw [hs] at h
          cases h
          rcases List.mem_cons.mp hmem with heq | hmem2
          · -- our [none] entry is the one being updated: the appended docId
            -- is not none (it is absent from [none]), so the sort on
            -- [none, d] must have raised - contradiction with hs
            exfalso
            have he : e = ⟨df, [none]⟩ := (Prod.mk.injEq _ _ _ _ |>.mp heq.symm).2
            subst he
            cases d with
            | none => exact hdm (List.mem_singleton.mpr rfl)
            | some m =>
              rw [show ((⟨df, [none]⟩ : BEntry).postings ++ [some m]) =
                    [none, some m] from rfl] at hs
              rw [show sortPostings [none, some m] =
                    .error .sortTypeError from rfl] at hs
              exact Except.noConfusion hs
          · exact ⟨df, List.mem_cons_of_mem _ hmem2⟩
    · rw [if_neg hk] at h
      cases hr : updateEntry u d rest with
      | error err => rw [hr] at h; exact Except.noConfusion h
      | ok rest2 =>
        rw [hr] at h
        cases h
        rcases List.mem_cons.mp hmem with heq | hmem2
        · exact ⟨df, heq ▸ List.mem_cons_self _ _⟩
        · obtain ⟨df2, h2⟩ := ih hmem2 hr
          exact ⟨df2, List.mem_cons_of_mem _ h2⟩

theorem processTokens_keepNone {docId : Option Int} {t : String} :
    ∀ (raws : List String) {ds : String} {idx : List (String × BEntry)}
      {ds2 : String} {idx2 : List (String × BEntry)} {df : Nat},
      (t, (⟨df, [none]⟩ : BEntry)) ∈ idx →
      processTokens docId ds idx raws = .ok (ds2, idx2) →
      ∃ df2, (t, (⟨df2, [none]⟩ : BEntry)) ∈ idx2 := by
  intro raws
  induction raws with
  | nil =>
    intro ds idx ds2 idx2 df hmem h
    cases h
    exact ⟨df, hmem⟩
  | cons raw rest ih =>
    intro ds idx ds2 idx2 df hmem h
    rw [processTokens] at h
    by_cases hne : normalizeToken raw = ""
    · rw [if_pos hne] at h
      exact ih hmem h
    · rw [if_neg hne] at h
      cases hu : updateEntry (normalizeToken raw) docId idx with
      | error err => rw [hu] at h; exact Except.noConfusion h
      | ok idxm =>
        rw [hu] at h
        obtain ⟨df2, hmem2⟩ := updateEntry_keepNone hmem hu
        exact ih hmem2 h

theorem processField_keepNone {fs : FState} {kv : String × Option String}
    {fs2 : FState} {t : String} {df : Nat}
    (hmem : (t, (⟨df, [none]⟩ : BEntry)) ∈ fs.index)
    (h : processField fs kv = .ok fs2) :
    ∃ df2, (t, (⟨df2, [none]⟩ : BEntry)) ∈ fs2.index := by
  obtain ⟨k, v⟩ := kv
  cases v with
  | none => exact Except.noConfusion h
  | some v =>
    simp only [processField] at h
    by_cases hv : v = ""
    · rw [if_pos hv] at h
      exact Except.noConfusion h
    · rw [if_neg hv] at h
      by_cases hk : k = "doc_id"
      · rw [if_pos hk] at h
        cases hp : pyIntParse v.data with
        | none =>
          simp only [hp] at h
          exact Except.noConfusion h
        | some m =>
          simp only [hp] at h
          by_cases hd : m ∈ fs.docIDs
          · rw [if_pos hd] at h
            exact Except.noConfusion h
          · rw [if_neg hd] at h
            cases h
            exact ⟨df, hmem⟩
      · rw [if_neg hk] at h
        cases hz : processTokens fs.docId fs.docString fs.index (zoneTokens v) with
        | error err =>
          simp only [hz] at h
          exact Except.noConfusion h
        | ok p =>
          obtain ⟨ds2, idx2⟩ := p
          simp only [hz] at h
          cases h
          exact processTokens_keepNone (zoneTokens v) hmem hz

theorem procFields_keepNone :
    ∀ (fields : List (String × Option String)) {fs fs2 : FState} {t : String} {df : Nat},
      (t, (⟨df, [none]⟩ : BEntry)) ∈ fs.index → procFields fs fields = .ok fs2 →
      ∃ df2, (t, (⟨df2, [none]⟩ : BEntry)) ∈ fs2.index := by
  intro fields
  induction fields with
  | nil =>
    intro fs fs2 t df hmem h
    cases h
    exact ⟨df, hmem⟩
  | cons kv rest ih =>
    intro fs fs2 t df hmem h
    rw [procFields] at h
    cases hf : processField fs kv with
    | error err => rw [hf] at h; exact Except.noConfusion h
    | ok fsm =>
      rw [hf] at h
      obtain ⟨df2, hmem2⟩ := processField_keepNone hmem hf
      exact ih hmem2 h

/-- Claim C10: when a content zone precedes the doc_id field, its tokens
are recorded with the null document identifier — for a single-document
corpus whose first field is a content zone, every token of that zone ends
up with postings [None] in the built index — and a later build that mixes
that null with an integer identifier in one postings list fails with the
sort TypeError. -/
theorem claim_C10_nullDocId (k txt : String) (rest : List (String × Option String))
    (idx : List (String × BEntry)) (dIdx : List (Int × String))
    (hk : k ≠ "doc_id")
    (hok : generateIndex [(k, some txt) :: rest] = .ok (idx, dIdx)) :
    (∀ t ∈ tokenizeZone txt, ∃ df, (t, (⟨df, [none]⟩ : BEntry)) ∈ idx) ∧
    generateIndex [[("title", some "common"), ("doc_id", some "1")],
      [("doc_id", some "2"), ("title", some "common")]] = .error .sortTypeError := by
  refine ⟨?_, rfl⟩
  intro t ht
  simp only [generateIndex] at hok
  cases hr : runDocs ⟨[], [], []⟩ [(k, some txt) :: rest] with
  | error err => rw [hr] at hok; exact Except.noConfusion hok
  | ok s =>
    rw [hr] at hok
    cases hok
    simp only [runDocs] at hr
    cases hp : processDoc ⟨[], [], []⟩ ((k, some txt) :: rest) with
    | error err => rw [hp] at hr; exact Except.noConfusion hr
    | ok s1 =>
      rw [hp] at hr
      cases hr
      simp only [processDoc] at hp
      by_cases hlen : ((k, some txt) :: rest).length ≤ 1
      · rw [if_pos hlen] at hp
        exact Except.noConfusion hp
      · rw [if_neg hlen] at hp
        cases hpf : procFields ⟨none, "", ([] : List Int),
            ([] : List (String × BEntry))⟩ ((k, some txt) :: rest) with
        | error err => rw [hpf] at hp; exact Except.noConfusion hp
        | ok fsm =>
          rw [hpf] at hp
          cases hd : fsm.docId with
          | none =>
            simp only [hd] at hp
            exact Except.noConfusion hp
          | some id =>
            simp only [hd] at hp
            cases hp
            rw [procFields] at hpf
            cases hf : processField ⟨none, "", ([] : List Int),
                ([] : List (String × BEntry))⟩ (k, some txt) with
            | error err => rw [hf] at hpf; exact Except.noConfusion hpf
            | ok fs1 =>
              rw [hf] at hpf
              simp only [processField] at hf
              by_cases htxt : txt = ""
              · rw [if_pos htxt] at hf
                exact Except.noConfusion hf
              · rw [if_neg htxt, if_neg hk] at hf
                cases hz : processTokens none "" [] (zoneTokens txt) with
                | error err =>
                  simp only [hz] at hf
                  exact Except.noConfusion hf
                | ok p =>
                  obtain ⟨ds1, idx1⟩ := p
                  simp only [hz] at hf
                  cases hf
                  obtain ⟨ds2, idx2, heq, _, hmem2, _⟩ :=
                    @processTokens_none (zoneTokens txt) "" []
                      (by intro q hq; cases hq)
                  rw [hz] at heq
                  cases heq
                  unfold tokenizeZone at ht
                  obtain ⟨raw, hraw, hsel⟩ := List.mem_filterMap.mp ht
                  simp only at hsel
                  by_cases hne : normalizeToken raw = ""
                  · rw [if_pos hne] at hsel
                    exact Option.noConfusion hsel
                  · rw [if_neg hne] at hsel
                    cases hsel
                    obtain ⟨df, hdf⟩ := hmem2 raw hraw hne
                    obtain ⟨df2, hdf2⟩ := procFields_keepNone rest hdf hpf
                    exact ⟨df2, (sortByKeyStr_perm _).mem_iff.mpr hdf2⟩

theorem claim_C10_wit :
    ("title" : String) ≠ "doc_id" ∧
    generateIndex [[("title", some "hello"), ("doc_id", some "1")]] =
      .ok ([("hello", ⟨1, [none]⟩)], [(1, "hello ")]) ∧
    ((∀ t ∈ tokenizeZone "hello", ∃ df, (t, (⟨df, [none]⟩ : BEntry)) ∈
        ([("hello", (⟨1, [none]⟩ : BEntry))] : List (String × BEntry))) ∧
      generateIndex [[("title", some "common"), ("doc_id", some "1")],
        [("doc_id", some "2"), ("title", some "common")]] = .error .sortTypeError) :=
  ⟨by decide, rfl,
    claim_C10_nullDocId "title" "hello" [("doc_id", some "1")]
      [("hello", ⟨1, [none]⟩)] [(1, "hello ")] (by decide) rfl⟩

/- Decimal round-trip lemmas (claim C1). -/

theorem digitChar_spec {d : Nat} (h : d < 10) :
    isDigitC (digitChar d) = true ∧ digitVal (digitChar d) = d := by
  interval_cases d <;> exact ⟨by decide, by decide⟩

theorem natToDigitsAux_stable :
    ∀ (n : Nat), ∀ (fuel1 : Nat), n < fuel1 → ∀ (fuel2 : Nat), n < fuel2 →
      natToDigitsAux fuel1 n = natToDigitsAux fuel2 n := by
  intro n
  induction n using Nat.strong_induction_on with
  | _ n ih =>
    intro fuel1 h1 fuel2 h2
    cases fuel1 with
    | zero => omega
    | succ f1 =>
      cases fuel2 with
      | zero => omega
      | succ f2 =>
        by_cases hn : n < 10
        · simp [natToDigitsAux, hn]
        · simp only [natToDigitsAux, if_neg hn]
          have hdiv : n / 10 < n := Nat.div_lt_self (by omega) (by omega)
          rw [ih (n / 10) hdiv f1 (by omega) f2 (by omega)]

theorem natToDigits_big {n : Nat} (h : 10 ≤ n) :
    natToDigits n = natToDigits (n / 10) ++ [digitChar (n % 10)] := by
  unfold natToDigits
  rw [show natToDigitsAux (n + 1) n =
        natToDigitsAux n (n / 10) ++ [digitChar (n % 10)] by
      simp [natToDigitsAux, Nat.not_lt.mpr h]]
  have hdiv : n / 10 < n := Nat.div_lt_self (by omega) (by omega)
  rw [natToDigitsAux_stable (n / 10) n hdiv (n / 10 + 1) (by omega)]

theorem natToDigits_small {n : Nat} (h : n < 10) : natToDigits n = [digitChar n] := by
  simp [natToDigits, natToDigitsAux, h]

theorem natToDigits_digits : ∀ (n : Nat), ∀ c ∈ natToDigits n, isDigitC c = true := by
  intro n
  induction n using Nat.strong_induction_on with
  | _ n ih =>
    intro c hc
    by_cases hn : n < 10
    · rw [natToDigits_small hn] at hc
      rcases List.mem_singleton.mp hc with rfl
      exact (digitChar_spec hn).1
    · rw [natToDigits_big (Nat.not_lt.mp hn)] at hc
      rcases List.mem_append.mp hc with h2 | h2
      · exact ih (n / 10) (Nat.div_lt_self (by omega) (by omega)) c h2
      · rcases List.mem_singleton.mp h2 with rfl
        exact (digitChar_spec (Nat.mod_lt n (by omega))).1

theorem natToDigits_ne : ∀ (n : Nat), natToDigits n ≠ [] := by
  intro n
  by_cases hn : n < 10
  · rw [natToDigits_small hn]
    simp
  · rw [natToDigits_big (Nat.not_lt.mp hn)]
    simp

theorem natToDigits_foldl : ∀ (n : Nat),
    (natToDigits n).foldl (fun a c => 10 * a + digitVal c) 0 = n := by
  have hstep : ∀ (l : List Char) (c : Char) (a : Nat),
      (l ++ [c]).foldl (fun a c => 10 * a + digitVal c) a =
        10 * (l.foldl (fun a c => 10 * a + digitVal c) a) + digitVal c := by
    intro l c a
    rw [List.foldl_append]
    rfl
  intro n
  induction n using Nat.strong_induction_on with
  | _ n ih =>
    by_cases hn : n < 10
    · rw [natToDigits_small hn]
      simp only [List.foldl_cons, List.foldl_nil]
      rw [(digitChar_spec hn).2]
      omega
    · rw [natToDigits_big (Nat.not_lt.mp hn), hstep,
        ih (n / 10) (Nat.div_lt_self (by omega) (by omega)),
        (digitChar_spec (Nat.mod_lt n (by omega))).2]
      omega

theorem digitsVal_eq {l : List Char} (hne : l ≠ []) (hall : l.all isDigitC = true) :
    digitsVal l = some (l.foldl (fun a c => 10 * a + digitVal c) 0) := by
  cases l with
  | nil => exact absurd rfl hne
  | cons c cs => simp [digitsVal, hall]

theorem digitsVal_natToDigits (n : Nat) : digitsVal (natToDigits n) = some n := by
  rw [digitsVal_eq (natToDigits_ne n)
      (List.all_eq_true.mpr (fun c hc => natToDigits_digits n c hc)),
    natToDigits_foldl]

theorem pyIntParse_natToDigits (n : Nat) : pyIntParse (natToDigits n) = some (n : Int) := by
  obtain ⟨c, cs, hd⟩ : ∃ c cs, natToDigits n = c :: cs := by
    cases hl : natToDigits n with
    | nil => exact absurd hl (natToDigits_ne n)
    | cons c cs => exact ⟨c, cs, rfl⟩
  rw [hd, pyIntParse]
  have hc : isDigitC c = true := natToDigits_digits n c (by rw [hd]; exact List.mem_cons_self _ _)
  rw [if_neg (by intro he; subst he; exact absurd hc (by decide))]
  rw [← hd, digitsVal_natToDigits]
  rfl

theorem pyIntParse_intToChars (i : Int) : pyIntParse (intToChars i) = some i := by
  unfold intToChars
  by_cases hneg : i < 0
  · rw [if_pos hneg, pyIntParse, if_pos rfl, digitsVal_natToDigits]
    have habs : -((i.natAbs : Nat) : Int) = i := by omega
    have hfin : (some (-((i.natAbs : Nat) : Int)) : Option Int) = some i := by rw [habs]
    exact hfin
  · rw [if_neg hneg, pyIntParse_natToDigits]
    rw [Int.toNat_of_nonneg (not_lt.mp hneg)]

theorem intToChars_chars (i : Int) :
    ∀ c ∈ intToChars i, isDigitC c = true ∨ c = '-' := by
  unfold intToChars
  by_cases hneg : i < 0
  · rw [if_pos hneg]
    intro c hc
    rcases List.mem_cons.mp hc with rfl | h2
    · exact Or.inr rfl
    · exact Or.inl (natToDigits_digits _ c h2)
  · rw [if_neg hneg]
    intro c hc
    exact Or.inl (natToDigits_digits _ c hc)

theorem splitOnChar_no_sep {sep : Char} :
    ∀ {l : List Char}, (∀ c ∈ l, c ≠ sep) → splitOnChar sep l = [l] := by
  intro l
  induction l with
  | nil => intro _; rfl
  | cons c rest ih =>
    intro h
    rw [splitOnChar, if_neg (h c (List.mem_cons_self _ _)),
      ih (fun c2 hc2 => h c2 (List.mem_cons_of_mem _ hc2))]
    rfl

theorem splitOnChar_sep_append {sep : Char} :
    ∀ {a rest : List Char}, (∀ c ∈ a, c ≠ sep) →
      splitOnChar sep (a ++ sep :: rest) = a :: splitOnChar sep rest := by
  intro a
  induction a with
  | nil =>
    intro rest _
    rw [List.nil_append, splitOnChar, if_pos rfl]
  | cons c a2 ih =>
    intro rest h
    rw [List.cons_append, splitOnChar, if_neg (h c (List.mem_cons_self _ _)),
      ih (fun c2 hc2 => h c2 (List.mem_cons_of_mem _ hc2))]
    rfl

theorem splitCS_nocomma :
    ∀ {l : List Char}, (∀ c ∈ l, c ≠ ',') → splitCS l = [l] := by
  intro l
  induction l with
  | nil => intro _; rfl
  | cons c1 rest ih =>
    intro h
    cases rest with
    | nil => rfl
    | cons c2 rest2 =>
      rw [splitCS, if_neg (fun hand => h c1 (List.mem_cons_self _ _) hand.1),
        ih (fun c hc => h c (List.mem_cons_of_mem _ hc))]
      rfl

theorem splitCS_sep :
    ∀ {a rest : List Char}, (∀ c ∈ a, c ≠ ',') →
      splitCS (a ++ ',' :: ' ' :: rest) = a :: splitCS rest := by
  intro a
  induction a with
  | nil =>
    intro rest _
    rw [List.nil_append, splitCS, if_pos ⟨rfl, rfl⟩]
  | cons c a2 ih =>
    intro rest h
    cases a2 with
    | nil =>
      rw [List.cons_append, List.nil_append, splitCS,
        if_neg (fun hand => h c (List.mem_cons_self _ _) hand.1)]
      rw [show splitCS (',' :: ' ' :: rest) = [] :: splitCS rest from by
        rw [splitCS, if_pos ⟨rfl, rfl⟩]]
      rfl
    | cons c2 a3 =>
      rw [List.cons_append, List.cons_append, splitCS,
        if_neg (fun hand => h c (List.mem_cons_self _ _) hand.1)]
      rw [← List.cons_append, ih (fun c3 hc3 => h c3 (List.mem_cons_of_mem _ hc3))]
      rfl

theorem splitCS_intercal :
    ∀ {parts : List (List Char)}, parts ≠ [] →
      (∀ p ∈ parts, ∀ c ∈ p, c ≠ ',') →
      splitCS (intercalCS parts) = parts := by
  intro parts
  induction parts with
  | nil => intro h _; exact absurd rfl h
  | cons p rest ih =>
    intro _ h
    cases rest with
    | nil => exact splitCS_nocomma (h p (List.mem_cons_self _ _))
    | cons q rest2 =>
      rw [intercalCS, splitCS_sep (h p (List.mem_cons_self _ _)),
        ih (by simp) (fun r hr => h r (List.mem_cons_of_mem _ hr))]

theorem intercalCS_chars (P : Char → Prop) :
    ∀ {parts : List (List Char)}, (∀ p ∈ parts, ∀ c ∈ p, P c) → P ',' → P ' ' →
      ∀ c ∈ intercalCS parts, P c := by
  intro parts
  induction parts with
  | nil => intro _ _ _ c hc; cases hc
  | cons p rest ih =>
    intro h hcomma hsp c hc
    cases rest with
    | nil => exact h p (List.mem_cons_self _ _) c hc
    | cons q rest2 =>
      rw [intercalCS] at hc
      rcases List.mem_append.mp hc with h2 | h2
      · exact h p (List.mem_cons_self _ _) c h2
      · rcases List.mem_cons.mp h2 with rfl | h3
        · exact hcomma
        · rcases List.mem_cons.mp h3 with rfl | h4
          · exact hsp
          · exact ih (fun r hr => h r (List.mem_cons_of_mem _ hr)) hcomma hsp c h4

theorem sliceToLenSub2_concat (xs : List Char) (c : Char) :
    sliceToLenSub2 (xs ++ [c]) = xs.dropLast := by
  unfold sliceToLenSub2
  rw [List.length_append, List.length_singleton]
  have h1 : xs.length + 1 - 2 = xs.length - 1 := by omega
  rw [h1, List.take_append_of_le_length (by omega), List.dropLast_eq_take]

theorem parseDocLine_round {i : Int} {s : String}
    (hs : ∀ c ∈ s.data, c ≠ '\t') :
    parseDocLine (docLine (i, s)) = .ok (i, String.mk s.data.dropLast) := by
  have hA : ∀ c ∈ intToChars i, c ≠ '\t' := by
    intro c hc he
    rcases intToChars_chars i c hc with h2 | h2
    · subst he; exact absurd h2 (by decide)
    · subst he; exact absurd h2 (by decide)
  have hB : ∀ c ∈ s.data ++ ['\n'], c ≠ '\t' := by
    intro c hc
    rcases List.mem_append.mp hc with h2 | h2
    · exact hs c h2
    · rcases List.mem_singleton.mp h2 with rfl
      decide
  show parseDocLine (intToChars i ++ '\t' :: (s.data ++ ['\n'])) = _
  unfold parseDocLine
  rw [splitOnChar_sep_append hA, splitOnChar_no_sep hB]
  simp only [pyIntParse_intToChars, sliceToLenSub2_concat]

theorem intsParse_map : ∀ (xs : List Int), intsParse (xs.map intToChars) = .ok xs := by
  intro xs
  induction xs with
  | nil => rfl
  | cons x rest ih =>
    rw [List.map_cons, intsParse, pyIntParse_intToChars, ih]

theorem strMk_data (s : String) : String.mk s.data = s := by
  cases s
  rfl

theorem sliceInner_repr (mid : List Char) :
    sliceInner (('[' :: (mid ++ [']'])) ++ ['\n']) = mid := by
  unfold sliceInner
  have hshape : ('[' :: (mid ++ [']'])) ++ ['\n'] = '[' :: (mid ++ [']', '\n']) := by
    simp
  rw [hshape, List.drop_one, List.tail_cons, List.length_cons, List.length_append]
  have h2 : mid.length + ([']', '\n'] : List Char).length + 1 - 3 = mid.length := by
    show mid.length + 2 + 1 - 3 = mid.length
    omega
  rw [h2, List.take_left]

theorem parseIndexLine_round {t : String} {e : BEntry}
    (ht : ∀ c ∈ t.data, isTokenChar c = true)
    (hne : e.postings ≠ []) (hsome : ∀ o ∈ e.postings, o ≠ none) :
    parseIndexLine (idxLine (t, e)) =
      .ok (t, ⟨(e.DF : Int), e.postings.filterMap id⟩) := by
  have hA : ∀ c ∈ t.data, c ≠ '\t' := fun c hc => (tokenChar_ne (ht c hc)).1
  have hB : ∀ c ∈ natToDigits e.DF, c ≠ '\t' := by
    intro c hc he
    have h2 := natToDigits_digits e.DF c hc
    subst he
    exact absurd h2 (by decide)
  have hrepchars : ∀ c ∈ intercalCS ((e.postings.map optToChars)),
      isDigitC c = true ∨ c = '-' ∨ c = ',' ∨ c = ' ' := by
    refine intercalCS_chars _ ?_ (Or.inr (Or.inr (Or.inl rfl)))
      (Or.inr (Or.inr (Or.inr rfl)))
    intro p hp c hc
    obtain ⟨o, ho, rfl⟩ := List.mem_map.mp hp
    cases o with
    | none => exact absurd rfl (hsome none ho)
    | some m =>
      rcases intToChars_chars m c hc with h2 | h2
      · exact Or.inl h2
      · exact Or.inr (Or.inl h2)
  have hC : ∀ c ∈ postingsRepr e.postings ++ ['\n'], c ≠ '\t' := by
    intro c hc he
    subst he
    rcases List.mem_append.mp hc with h2 | h2
    · unfold postingsRepr at h2
      rcases List.mem_cons.mp h2 with h3 | h3
      · exact absurd h3.symm (by decide)
      · rcases List.mem_append.mp h3 with h4 | h4
        · rcases hrepchars _ h4 with h5 | h5 | h5 | h5 <;> exact absurd h5 (by decide)
        · rcases List.mem_singleton.mp h4 with h5
          exact absurd h5 (by decide)
    · rcases List.mem_singleton.mp h2 with h5
      exact absurd h5 (by decide)
  show parseIndexLine (t.data ++ '\t' ::
    (natToDigits e.DF ++ '\t' :: (postingsRepr e.postings ++ ['\n']))) = _
  unfold parseIndexLine
  rw [splitOnChar_sep_append hA, splitOnChar_sep_append hB, splitOnChar_no_sep hC]
  simp only [postingsRepr]
  rw [sliceInner_repr]
  have hpartsne : e.postings.map optToChars ≠ [] := by
    intro h0
    exact hne (List.map_eq_nil_iff.mp h0)
  have hnocomma : ∀ p ∈ e.postings.map optToChars, ∀ c ∈ p, c ≠ ',' := by
    intro p hp c hc he
    obtain ⟨o, ho, rfl⟩ := List.mem_map.mp hp
    cases o with
    | none => exact absurd rfl (hsome none ho)
    | some m =>
      subst he
      rcases intToChars_chars m ',' hc with h2 | h2
      · exact absurd h2 (by decide)
      · exact absurd h2 (by decide)
  rw [splitCS_intercal hpartsne hnocomma]
  have hmaps : e.postings.map optToChars = (e.postings.filterMap id).map intToChars := by
    conv_lhs => rw [allSome_eq hsome]
    rw [List.map_map]
    rfl
  rw [hmaps, intsParse_map, pyIntParse_natToDigits, strMk_data]

theorem parseLines_map {α β : Type} (f : List Char → Except Unit α)
    (g : β → List Char) (out : β → α) :
    ∀ (l : List β), (∀ b ∈ l, f (g b) = .ok (out b)) →
      parseLines f (l.map g) = .ok (l.map out) := by
  intro l
  induction l with
  | nil => intro _; rfl
  | cons b rest ih =>
    intro h
    rw [List.map_cons, parseLines, h b (List.mem_cons_self _ _),
      ih (fun b2 hb2 => h b2 (List.mem_cons_of_mem _ hb2))]
    rfl

theorem foldl_pyDictSet_pairs {α β : Type} [DecidableEq α] :
    ∀ (l : List (α × β)) (acc : List (α × β)), (l.map Prod.fst).Nodup →
      (∀ k ∈ l.map Prod.fst, k ∉ acc.map Prod.fst) →
      l.foldl (fun a p => pyDictSet a p.1 p.2) acc = acc ++ l := by
  intro l
  induction l with
  | nil => intro acc _ _; simp
  | cons p rest ih =>
    intro acc hnd hdisj
    rw [List.foldl_cons, pyDictSet_fresh (hdisj p.1 (by simp)) p.2]
    have hnd1 : (p.1 :: rest.map Prod.fst).Nodup := by simpa using hnd
    have hnd2 := List.nodup_cons.mp hnd1
    rw [ih _ hnd2.2 ?_]
    · simp
    · intro k hk hmem
      rw [List.map_append] at hmem
      rcases List.mem_append.mp hmem with h2 | h2
      · exact hdisj k (by simp [hk]) h2
      · simp only [List.map_cons, List.map_nil, List.mem_singleton] at h2
        subst h2
        exact hnd2.1 hk

/-- Claim C1 (amended): for a successful build whose postings all carry
integer identifiers, deserializing the serialized inverted index
reconstructs every term with its documentFrequency and postings exactly;
deserializing the serialized document index reconstructs every documentId
but maps each stored normalizedText to the in-memory text with its final
character removed — the builder always leaves a trailing space (or an
empty string), and buildIndexes strips the last two characters of the
stored field (the newline and that trailing space), so the reconstructed
pair is not structurally identical to the in-memory one. -/
theorem claim_C1_roundTrip (corpus : List (List (String × Option String)))
    (idx : List (String × BEntry)) (dIdx : List (Int × String))
    (hok : generateIndex corpus = .ok (idx, dIdx))
    (hsome : ∀ p ∈ idx, ∀ o ∈ p.2.postings, o ≠ none) :
    deserializeIndexLines (serializeIndex idx) =
      .ok (idx.map (fun p => (p.1, (⟨(p.2.DF : Int), p.2.postings.filterMap id⟩ : DEntry)))) ∧
    deserializeDocIndexLines (serializeDocIndex dIdx) =
      .ok (dIdx.map (fun p => (p.1, String.mk p.2.data.dropLast))) := by
  obtain ⟨hidx, hdidx⟩ := generateIndex_inv hok
  have hkeysI : (idx.map (fun p => (p.1,
      (⟨(p.2.DF : Int), p.2.postings.filterMap id⟩ : DEntry)))).map Prod.fst =
      idx.map Prod.fst := by
    rw [List.map_map]
    rfl
  have hkeysD : (dIdx.map (fun p => (p.1, String.mk p.2.data.dropLast))).map Prod.fst =
      dIdx.map Prod.fst := by
    rw [List.map_map]
    rfl
  constructor
  · have hpl : parseLines parseIndexLine (idx.map idxLine) =
        .ok (idx.map (fun p => (p.1,
          (⟨(p.2.DF : Int), p.2.postings.filterMap id⟩ : DEntry)))) := by
      refine parseLines_map parseIndexLine idxLine _ idx ?_
      intro p hp
      obtain ⟨htok, hentry⟩ := hidx.2 p hp
      exact parseIndexLine_round htok.2 hentry.2.1 (hsome p hp)
    have hfold : (idx.map (fun p => (p.1,
        (⟨(p.2.DF : Int), p.2.postings.filterMap id⟩ : DEntry)))).foldl
          (fun acc p => pyDictSet acc p.1 p.2) [] =
        idx.map (fun p => (p.1,
          (⟨(p.2.DF : Int), p.2.postings.filterMap id⟩ : DEntry))) := by
      rw [foldl_pyDictSet_pairs _ [] (by rw [hkeysI]; exact hidx.1)
        (by intro k _ hk; cases hk)]
      rfl
    simp only [deserializeIndexLines, serializeIndex, hpl, hfold]
  · have hpl : parseLines parseDocLine (dIdx.map docLine) =
        .ok (dIdx.map (fun p => (p.1, String.mk p.2.data.dropLast))) := by
      refine parseLines_map parseDocLine docLine _ dIdx ?_
      intro p hp
      have hds := hdidx.2 p hp
      refine parseDocLine_round ?_
      intro c hc
      rcases hds c hc with h2 | h2
      · exact (tokenChar_ne h2).1
      · subst h2
        decide
    have hfold : (dIdx.map (fun p => (p.1, String.mk p.2.data.dropLast))).foldl
          (fun acc p => pyDictSet acc p.1 p.2) [] =
        dIdx.map (fun p => (p.1, String.mk p.2.data.dropLast)) := by
      rw [foldl_pyDictSet_pairs _ [] (by rw [hkeysD]; exact hdidx.1)
        (by intro k _ hk; cases hk)]
      rfl
    simp only [deserializeDocIndexLines, serializeDocIndex, hpl, hfold]

/-- Claim C1 counterexample: build the one-document corpus with zone text
"hello"; the in-memory normalizedText is "hello " (trailing space), but
serializing and deserializing the document index yields "hello" — the
reconstructed pair is not structurally identical to the built pair. -/
theorem claim_C1_cex :
    generateIndex [[("doc_id", some "1"), ("z", some "hello")]] =
      .ok ([("hello", ⟨1, [some 1]⟩)], [(1, "hello ")]) ∧
    deserializeDocIndexLines (serializeDocIndex [(1, "hello ")]) =
      .ok [(1, "hello")] ∧
    ("hello" : String) ≠ "hello " :=
  ⟨rfl, rfl, by decide⟩

theorem claim_C1_wit :
    generateIndex [[("doc_id", some "1"), ("z", some "hello world")]] =
      .ok ([("hello", ⟨1, [some 1]⟩), ("world", ⟨1, [some 1]⟩)],
        [(1, "hello world ")]) ∧
    (∀ p ∈ ([("hello", (⟨1, [some 1]⟩ : BEntry)), ("world", ⟨1, [some 1]⟩)] :
        List (String × BEntry)), ∀ o ∈ p.2.postings, o ≠ none) ∧
    (deserializeIndexLines (serializeIndex
        [("hello", ⟨1, [some 1]⟩), ("world", ⟨1, [some 1]⟩)]) =
      .ok (([("hello", (⟨1, [some 1]⟩ : BEntry)), ("world", ⟨1, [some 1]⟩)] :
        List (String × BEntry)).map (fun p =>
          (p.1, (⟨(p.2.DF : Int), p.2.postings.filterMap id⟩ : DEntry)))) ∧
    deserializeDocIndexLines (serializeDocIndex [(1, "hello world ")]) =
      .ok (([(1, "hello world ")] : List (Int × String)).map (fun p =>
        (p.1, String.mk p.2.data.dropLast)))) :=
  ⟨rfl, by decide,
    claim_C1_roundTrip [[("doc_id", some "1"), ("z", some "hello world")]]
      [("hello", ⟨1, [some 1]⟩), ("world", ⟨1, [some 1]⟩)] [(1, "hello world ")]
      rfl (by decide)⟩
